import Mathlib

/-!
Shallow embedding of the `bintrie` crate (`src/lib.rs`): a 16-way trie over
an append-only arena of fixed 16-slot nodes, with slot encoding
`0` = empty, top bit set = leaf (low 31 bits are the item), anything else =
internal reference (arena index of the child node).

`u32` values are modelled as `Nat` (with explicit `% 2 ^ 32` where the
source casts); the `Vec<Internal>` arena is a `List`; the caller-supplied
`K`/`F` callbacks of the unchecked entry points are `Fin 16`-valued
functions (their documented precondition is that they return indices below
16), while the validated entry points take `Nat`-valued callbacks and model
a panic as `none`.
-/

/-- The leaf discriminator bit: `HIGH = 0x8000_0000` in the source. -/
def HIGH : Nat := 2 ^ 31

/-- The low 31-bit mask, `!HIGH` on `u32` (`0x7fff_ffff`). -/
def NOTHIGH : Nat := 2 ^ 31 - 1

/-- `struct Internal([u32; 16])`: one node, 16 child slots. -/
abbrev Internal := Fin 16 → Nat

/-- `Internal::default()`: all slots empty. -/
def emptyInternal : Internal := fun _ => 0

/-- `struct BinTrie`: the arena of nodes (root at index 0) and the maximum
depth. -/
structure BinTrie where
  internals : List Internal
  depth : Nat

/-- Read the arena at index `j` (`self.internals.get_unchecked(j)`; reads
outside the arena are undefined behaviour in the source, modelled by an
all-empty default node). -/
def getNode (ns : List Internal) (j : Nat) : Internal :=
  ns.getD j emptyInternal

/-- Write slot `p` of arena node `j` to `v`. -/
def setSlot (ns : List Internal) (j : Nat) (p : Fin 16) (v : Nat) : List Internal :=
  ns.set j (Function.update (getNode ns j) p v)

/-- The body of `BinTrie::insert_unchecked`: `remaining` counts how many
iterations of the `for i in 0..self.depth - 1` loop are left, `index` is the
current node and `i` the current group index; `remaining = 0` runs the
final-group code after the loop.  Returns the new arena together with
whether the item was actually written (`false` exactly when the final-group
slot was already occupied and the item was silently dropped), or `none`
when the `assert!(new_index & HIGH == 0)` capacity assertion fires. -/
def insertFrom (item : Nat) (key : Nat → Fin 16) (lookup : Nat → Nat → Fin 16) :
    (remaining : Nat) → (ns : List Internal) → (index : Nat) → (i : Nat) →
    Option (List Internal × Bool)
  | 0, ns, index, i =>
    if getNode ns index (key i) = 0 then
      some (setSlot ns index (key i) (item ||| HIGH), true)
    else
      some (ns, false)
  | remaining + 1, ns, index, i =>
    let m := getNode ns index (key i)
    if m = 0 then
      some (setSlot ns index (key i) (item ||| HIGH), true)
    else if m &&& HIGH ≠ 0 then
      let newInternal : Internal :=
        Function.update emptyInternal (lookup (m &&& NOTHIGH) (i + 1)) m
      let newIndex := ns.length % 2 ^ 32
      if newIndex &&& HIGH ≠ 0 then none
      else
        insertFrom item key lookup remaining
          (setSlot (ns ++ [newInternal]) index (key i) newIndex) newIndex (i + 1)
    else
      insertFrom item key lookup remaining ns m (i + 1)

/-- `BinTrie::insert_unchecked` (the `Bool` records whether the item was
written, an observation the Rust function does not return). -/
def BinTrie.insert_unchecked (t : BinTrie) (item : Nat) (key : Nat → Fin 16)
    (lookup : Nat → Nat → Fin 16) : Option (BinTrie × Bool) :=
  (insertFrom item key lookup (t.depth - 1) t.internals 0 0).map
    fun p => (⟨p.1, t.depth⟩, p.2)

/-- The loop of `BinTrie::get_unchecked`. -/
def getFrom (key : Nat → Fin 16) :
    (remaining : Nat) → (ns : List Internal) → (index : Nat) → (i : Nat) → Option Nat
  | 0, _, _, _ => none
  | remaining + 1, ns, index, i =>
    let m := getNode ns index (key i)
    if m = 0 then none
    else if m &&& HIGH ≠ 0 then some (m &&& NOTHIGH)
    else getFrom key remaining ns m (i + 1)

/-- `BinTrie::get_unchecked`. -/
def BinTrie.get_unchecked (t : BinTrie) (key : Nat → Fin 16) : Option Nat :=
  getFrom key t.depth t.internals 0 0

/-- The body of the validated `BinTrie::insert` after its `item` check: the
same loop, but the wrapped callbacks `assert!(out < 16)` each time they are
called; a failing assertion (and the capacity assertion) is `none`. -/
def insertFromC (item : Nat) (key : Nat → Nat) (lookup : Nat → Nat → Nat) :
    (remaining : Nat) → (ns : List Internal) → (index : Nat) → (i : Nat) →
    Option (List Internal × Bool)
  | 0, ns, index, i =>
    if h : key i < 16 then
      if getNode ns index ⟨key i, h⟩ = 0 then
        some (setSlot ns index ⟨key i, h⟩ (item ||| HIGH), true)
      else some (ns, false)
    else none
  | remaining + 1, ns, index, i =>
    if h : key i < 16 then
      let m := getNode ns index ⟨key i, h⟩
      if m = 0 then
        some (setSlot ns index ⟨key i, h⟩ (item ||| HIGH), true)
      else if m &&& HIGH ≠ 0 then
        if h2 : lookup (m &&& NOTHIGH) (i + 1) < 16 then
          let newInternal : Internal :=
            Function.update emptyInternal ⟨lookup (m &&& NOTHIGH) (i + 1), h2⟩ m
          let newIndex := ns.length % 2 ^ 32
          if newIndex &&& HIGH ≠ 0 then none
          else
            insertFromC item key lookup remaining
              (setSlot (ns ++ [newInternal]) index ⟨key i, h⟩ newIndex) newIndex (i + 1)
        else none
      else insertFromC item key lookup remaining ns m (i + 1)
    else none

/-- The validated `BinTrie::insert`: `assert!(item & HIGH == 0)` and the
per-call range assertions on the callbacks; `none` models a panic. -/
def BinTrie.insert (t : BinTrie) (item : Nat) (key : Nat → Nat)
    (lookup : Nat → Nat → Nat) : Option BinTrie :=
  if item &&& HIGH ≠ 0 then none
  else (insertFromC item key lookup (t.depth - 1) t.internals 0 0).map
    fun p => ⟨p.1, t.depth⟩

/-- The loop of the validated `BinTrie::get`: the wrapped key asserts each
returned index is below 16.  The outer `Option` is the panic, the inner one
the lookup result. -/
def getFromC (key : Nat → Nat) :
    (remaining : Nat) → (ns : List Internal) → (index : Nat) → (i : Nat) →
    Option (Option Nat)
  | 0, _, _, _ => some none
  | remaining + 1, ns, index, i =>
    if h : key i < 16 then
      let m := getNode ns index ⟨key i, h⟩
      if m = 0 then some none
      else if m &&& HIGH ≠ 0 then some (some (m &&& NOTHIGH))
      else getFromC key remaining ns m (i + 1)
    else none

/-- The validated `BinTrie::get`. -/
def BinTrie.get (t : BinTrie) (key : Nat → Nat) : Option (Option Nat) :=
  getFromC key t.depth t.internals 0 0

/-- The state `BinTrie::new_depth` constructs once its assertion has
passed: a one-node arena holding the empty root, and the given depth. -/
def freshTrie (d : Nat) : BinTrie :=
  ⟨[emptyInternal], d⟩

/-- `BinTrie::new_depth` with its `assert!(depth > 0)` (`none` = panic). -/
def BinTrie.new_depth (d : Nat) : Option BinTrie :=
  if 0 < d then some (freshTrie d) else none

/-- `BinTrie::new` / `Default::default()`: depth 8192. -/
def BinTrie.newDefault : BinTrie :=
  freshTrie 8192

/-- `node.0.iter()` materialised: the 16 slots in ascending slot order. -/
def slotsList (node : Internal) : List Nat :=
  (List.finRange 16).map node

/-- The `Iter::next` loop of `items()`, run to exhaustion.  The head of
`stack` is the top (most recently pushed) slice iterator, each entry being
the remaining suffix of a node's slots.  The Rust iterator is demand
driven and unbounded, so the model takes explicit fuel, one unit per trip
through the `loop`; `none` means the fuel ran out before the stack
emptied.  Yielded items are returned in yield order. -/
def collect (ns : List Internal) :
    (fuel : Nat) → (stack : List (List Nat)) → Option (List Nat)
  | _, [] => some []
  | 0, _ :: _ => none
  | fuel + 1, [] :: rest => collect ns fuel rest
  | fuel + 1, (n :: e) :: rest =>
    if n = 0 then collect ns fuel (e :: rest)
    else if n &&& HIGH ≠ 0 then
      (collect ns fuel (e :: rest)).map fun l => (n &&& NOTHIGH) :: l
    else collect ns fuel (slotsList (getNode ns n) :: e :: rest)

/-- Fuel bound for `collect`: an upper bound on the loop trips needed to
drain the expansion of node `index` (16 slot visits and one final pop per
node occurrence). -/
def workNode (ns : List Internal) : (fuel : Nat) → (index : Nat) → Nat
  | 0, _ => 0
  | fuel + 1, j =>
    17 + ((slotsList (getNode ns j)).map
      (fun v => if v ≠ 0 ∧ v &&& HIGH = 0 then workNode ns fuel v else 0)).sum

/-- Loop trips needed to drain one stack entry. -/
def entryWork (ns : List Internal) (e : List Nat) : Nat :=
  1 + (e.map (fun v =>
    1 + if v ≠ 0 ∧ v &&& HIGH = 0 then workNode ns (ns.length + 1) v else 0)).sum

/-- Loop trips needed to drain a whole stack. -/
def stackWork (ns : List Internal) (stack : List (List Nat)) : Nat :=
  (stack.map (entryWork ns)).sum

/-- The initial stack of `Iter::new`: the root node's slot iterator. -/
def itemsInit (ns : List Internal) : List (List Nat) :=
  [slotsList (getNode ns 0)]

/-- `BinTrie::items()` collected into a list (with the canonical fuel). -/
def BinTrie.items (t : BinTrie) : Option (List Nat) :=
  collect t.internals (stackWork t.internals (itemsInit t.internals))
    (itemsInit t.internals)

/-- Reference denotation: the leaves of the subtrie rooted at arena node
`index`, in depth-first ascending-slot order, developed to `fuel` levels. -/
def leavesNode (ns : List Internal) : (fuel : Nat) → (index : Nat) → List Nat
  | 0, _ => []
  | fuel + 1, j =>
    ((slotsList (getNode ns j)).map
      (fun v => if v = 0 then [] else if v &&& HIGH ≠ 0 then [v &&& NOTHIGH]
                else leavesNode ns fuel v)).flatten

/-- The leaves reachable from one stack entry (fully developed). -/
def entryLeaves (ns : List Internal) (e : List Nat) : List Nat :=
  (e.map (fun v => if v = 0 then [] else if v &&& HIGH ≠ 0 then [v &&& NOTHIGH]
                   else leavesNode ns (ns.length + 1) v)).flatten

/-- The leaves reachable from a whole stack. -/
def stackLeaves (ns : List Internal) (stack : List (List Nat)) : List Nat :=
  (stack.map (entryLeaves ns)).flatten

/-- All leaves of the trie, fully developed from the root. -/
def BinTrie.leaves (t : BinTrie) : List Nat :=
  leavesNode t.internals (t.internals.length + 1) 0

/-- Modelled from the spec: the `UncheckedHeuristic` contract lives in the
crate's `heuristic` module, whose source file is not part of the provided
sources.  Per the spec a heuristic supplies (a) from its current state an
iterator of candidate slot indices worth visiting at the current node and
(b) a state transition for descending into a chosen candidate; under the
unchecked contract candidate indices are below 16. -/
structure UncheckedHeuristic (σ : Type) where
  iter : σ → List (Fin 16)
  enter : Fin 16 → σ → σ

/-- The `ExploreIter::next` loop of `explore`, run to exhaustion with
explicit fuel, one unit per trip through the `loop`.  Each stack entry is
the current node's slot array, the heuristic state that produced the entry,
and the remaining candidate iterator. -/
def exploreCollect {σ : Type} (ns : List Internal) (H : UncheckedHeuristic σ) :
    (fuel : Nat) → (stack : List (Internal × σ × List (Fin 16))) → Option (List Nat)
  | _, [] => some []
  | 0, _ :: _ => none
  | fuel + 1, (array, h, it) :: rest =>
    match it with
    | [] => exploreCollect ns H fuel rest
    | choice :: it' =>
      let n := array choice
      if n = 0 then exploreCollect ns H fuel ((array, h, it') :: rest)
      else if n &&& HIGH ≠ 0 then
        (exploreCollect ns H fuel ((array, h, it') :: rest)).map
          fun l => (n &&& NOTHIGH) :: l
      else
        let h2 := H.enter choice h
        exploreCollect ns H fuel
          ((getNode ns n, h2, H.iter h2) :: (array, h, it') :: rest)

/-- The initial stack of `ExploreIter::new`. -/
def exploreInit {σ : Type} (ns : List Internal) (H : UncheckedHeuristic σ)
    (s : σ) : List (Internal × σ × List (Fin 16)) :=
  [(getNode ns 0, s, H.iter s)]

/-- `BinTrie::explore` collected into a list, with explicit fuel. -/
def BinTrie.explore {σ : Type} (t : BinTrie) (H : UncheckedHeuristic σ) (s : σ)
    (fuel : Nat) : Option (List Nat) :=
  exploreCollect t.internals H fuel (exploreInit t.internals H s)

/-- The heuristic whose candidate function returns the full `0..16` range at
every node (the state transition is arbitrary). -/
def fullHeuristic {σ : Type} (enter : Fin 16 → σ → σ) : UncheckedHeuristic σ :=
  ⟨fun _ => List.finRange 16, enter⟩

/-- Structural invariant of the arena: every internal-reference slot is a
valid index below the arena length, and points strictly forward (a child is
always appended after its parent, so references increase). -/
def WF (ns : List Internal) : Prop :=
  ∀ (j : Fin ns.length) (p : Fin 16),
    ns.get j p ≠ 0 → ns.get j p &&& HIGH = 0 →
      (j : Nat) < ns.get j p ∧ ns.get j p < ns.length

instance (ns : List Internal) : Decidable (WF ns) := by
  unfold WF; infer_instance

/-- Specification-side descent trace (written from the spec's description of
lookup): the arena index reached after `k` internal-reference steps when
following `key` from node `j` starting at group `i`; `none` when the walk
stopped earlier (empty or leaf slot). -/
def traceFrom (ns : List Internal) (key : Nat → Fin 16) (j i : Nat) :
    Nat → Option Nat
  | 0 => some j
  | k + 1 =>
    match traceFrom ns key j i k with
    | none => none
    | some c =>
      let m := getNode ns c (key (i + k))
      if m ≠ 0 ∧ m &&& HIGH = 0 then some m else none

/-- Trie states reachable through the constructors and precondition-
respecting unchecked insertions, paired with the multiset of items the
successful (non-dropped) insertions wrote. -/
inductive Reached : BinTrie → Multiset Nat → Prop
  | new (d : Nat) (hd : 0 < d) : Reached (freshTrie d) 0
  | ins (t : BinTrie) (m : Multiset Nat) (x : Nat) (key : Nat → Fin 16)
      (lookup : Nat → Nat → Fin 16) (t' : BinTrie) (placed : Bool)
      (hx : x < HIGH) (h : Reached t m)
      (hi : t.insert_unchecked x key lookup = some (t', placed)) :
      Reached t' (if placed then x ::ₘ m else m)

lemma high_pos : 0 < HIGH := by decide

lemma testBit_high_self : Nat.testBit HIGH 31 = true := by decide

lemma testBit_high_ne {i : Nat} (h : i ≠ 31) : Nat.testBit HIGH i = false := by
  rw [show HIGH = 2 ^ 31 from rfl, Nat.testBit_two_pow]
  simpa using fun hc => h hc.symm

lemma testBit_nothigh (i : Nat) : Nat.testBit NOTHIGH i = decide (i < 31) := by
  rw [show NOTHIGH = 2 ^ 31 - 1 from rfl, Nat.testBit_two_pow_sub_one]

lemma testBit_of_lt_high {x : Nat} (hx : x < HIGH) {i : Nat} (h : 31 ≤ i) :
    x.testBit i = false :=
  Nat.testBit_lt_two_pow
    (lt_of_lt_of_le hx (Nat.pow_le_pow_right (by norm_num) h))

lemma lor_high_and_nothigh {x : Nat} (hx : x < HIGH) :
    (x ||| HIGH) &&& NOTHIGH = x := by
  apply Nat.eq_of_testBit_eq
  intro i
  rw [Nat.testBit_and, Nat.testBit_or, testBit_nothigh]
  rcases lt_or_ge i 31 with h | h
  · rw [testBit_high_ne (by omega)]
    have : decide (i < 31) = true := by simpa using h
    rw [this, Bool.or_false, Bool.and_true]
  · have : decide (i < 31) = false := by simpa using h
    rw [this, Bool.and_false, testBit_of_lt_high hx h]

lemma lor_high_and_high (x : Nat) : (x ||| HIGH) &&& HIGH ≠ 0 := by
  intro h
  have h2 := congrArg (fun n => n.testBit 31) h
  simp only [Nat.testBit_and, Nat.testBit_or, Nat.zero_testBit,
    testBit_high_self, Bool.or_true, Bool.and_true] at h2
  exact absurd h2 (by decide)

lemma lor_high_ne_zero (x : Nat) : x ||| HIGH ≠ 0 := by
  intro h
  refine lor_high_and_high x ?_
  rw [h]
  rfl

lemma and_high_eq_zero_of_lt {v : Nat} (h : v < HIGH) : v &&& HIGH = 0 := by
  apply Nat.eq_of_testBit_eq
  intro i
  rw [Nat.testBit_and, Nat.zero_testBit]
  rcases eq_or_ne i 31 with rfl | hi
  · rw [testBit_of_lt_high h (le_refl 31), Bool.false_and]
  · rw [testBit_high_ne hi, Bool.and_false]

lemma lt_high_of_and {v : Nat} (hv : v ≤ HIGH) (h : v &&& HIGH = 0) : v < HIGH := by
  rcases lt_or_eq_of_le hv with h' | rfl
  · exact h'
  · rw [Nat.and_self] at h
    exact absurd h (by decide)

lemma length_setSlot (ns : List Internal) (j : Nat) (p : Fin 16) (v : Nat) :
    (setSlot ns j p v).length = ns.length := by
  simp [setSlot]

lemma getNode_set_self {ns : List Internal} {j : Nat} (h : j < ns.length)
    (f : Internal) : getNode (ns.set j f) j = f := by
  simp [getNode, List.getD_eq_getElem?_getD, List.getElem?_set_self (by simpa using h)]

lemma getNode_set_ne {ns : List Internal} {j k : Nat} (h : j ≠ k) (f : Internal) :
    getNode (ns.set j f) k = getNode ns k := by
  simp [getNode, List.getD_eq_getElem?_getD, List.getElem?_set_ne h]

lemma getNode_append_left {ns : List Internal} {j : Nat} (h : j < ns.length)
    (f : Internal) : getNode (ns ++ [f]) j = getNode ns j := by
  simp [getNode, List.getD_eq_getElem?_getD, List.getElem?_append_left h]

lemma getNode_append_right (ns : List Internal) (f : Internal) :
    getNode (ns ++ [f]) ns.length = f := by
  simp [getNode, List.getD_eq_getElem?_getD, List.getElem?_concat_length]

lemma getNode_setSlot_self {ns : List Internal} {j : Nat} (h : j < ns.length)
    (p : Fin 16) (v : Nat) :
    getNode (setSlot ns j p v) j = Function.update (getNode ns j) p v :=
  getNode_set_self h _

lemma getNode_setSlot_ne {ns : List Internal} {j k : Nat} (h : j ≠ k)
    (p : Fin 16) (v : Nat) : getNode (setSlot ns j p v) k = getNode ns k :=
  getNode_set_ne h _

lemma getNode_of_ge {ns : List Internal} {j : Nat} (h : ns.length ≤ j) :
    getNode ns j = emptyInternal := by
  simp [getNode, List.getD_eq_getElem?_getD, List.getElem?_eq_none h]

lemma WF_spec {ns : List Internal} (hwf : WF ns) {j : Nat} (hj : j < ns.length)
    {p : Fin 16} (h0 : getNode ns j p ≠ 0) (hh : getNode ns j p &&& HIGH = 0) :
    j < getNode ns j p ∧ getNode ns j p < ns.length := by
  have hg : getNode ns j = ns.get ⟨j, hj⟩ := by
    simp [getNode, List.getD_eq_getElem?_getD, List.getElem?_eq_getElem hj,
      List.get_eq_getElem]
  rw [hg] at h0 hh ⊢
  exact hwf ⟨j, hj⟩ p h0 hh

lemma WF_spec_at {ns : List Internal} (hwf : WF ns) {j : Nat} (hj : j < ns.length)
    (p : Fin 16) (h0 : getNode ns j p ≠ 0) (hh : getNode ns j p &&& HIGH = 0) :
    j < getNode ns j p ∧ getNode ns j p < ns.length :=
  WF_spec hwf hj h0 hh

lemma mem_slotsList {nd : Internal} {v : Nat} (h : v ∈ slotsList nd) :
    ∃ p : Fin 16, nd p = v := by
  rcases List.mem_map.mp h with ⟨p, _, hp⟩
  exact ⟨p, hp⟩

lemma flatten_map_nil {α β : Type} (l : List α) :
    (l.map (fun _ => ([] : List β))).flatten = [] := by
  induction l with
  | nil => rfl
  | cons a l ih => simp [ih]

lemma sum_map_one_add {α : Type} (l : List α) (f : α → Nat) :
    (l.map (fun a => 1 + f a)).sum = l.length + (l.map f).sum := by
  induction l with
  | nil => rfl
  | cons a l ih => simp [ih]; omega

lemma sum_map_zero {α : Type} (l : List α) :
    (l.map (fun _ => (0 : Nat))).sum = 0 := by
  induction l with
  | nil => rfl
  | cons a l ih => simp [ih]

lemma leavesNode_of_ge {ns : List Internal} {j : Nat} (h : ns.length ≤ j) :
    ∀ f, leavesNode ns f j = [] := by
  intro f
  cases f with
  | zero => rfl
  | succ f =>
    simp only [leavesNode, getNode_of_ge h]
    have h1 : (slotsList emptyInternal).map
        (fun v => if v = 0 then [] else if v &&& HIGH ≠ 0 then [v &&& NOTHIGH]
                  else leavesNode ns f v) =
        (slotsList emptyInternal).map (fun _ => ([] : List Nat)) := by
      apply List.map_congr_left
      intro a ha
      rcases mem_slotsList ha with ⟨p, hp⟩
      rw [← hp]
      rfl
    rw [h1, flatten_map_nil]

lemma workNode_of_ge {ns : List Internal} {j : Nat} (h : ns.length ≤ j) :
    ∀ f, workNode ns (f + 1) j = 17 := by
  intro f
  simp only [workNode, getNode_of_ge h]
  have h1 : (slotsList emptyInternal).map
      (fun v => if v ≠ 0 ∧ v &&& HIGH = 0 then workNode ns f v else 0) =
      (slotsList emptyInternal).map (fun _ => (0 : Nat)) := by
    apply List.map_congr_left
    intro a ha
    rcases mem_slotsList ha with ⟨p, hp⟩
    rw [← hp]
    simp [emptyInternal]
  rw [h1, sum_map_zero]

lemma leavesNode_stable {ns : List Internal} (hwf : WF ns) :
    ∀ (k j f g : Nat), ns.length - j ≤ k → ns.length - j < f → ns.length - j < g →
      leavesNode ns f j = leavesNode ns g j := by
  intro k
  induction k with
  | zero =>
    intro j f g hk hf hg
    have hj : ns.length ≤ j := by omega
    rw [leavesNode_of_ge hj, leavesNode_of_ge hj]
  | succ k ih =>
    intro j f g hk hf hg
    rcases le_or_lt ns.length j with hj | hj
    · rw [leavesNode_of_ge hj, leavesNode_of_ge hj]
    · obtain ⟨f, rfl⟩ : ∃ f', f = f' + 1 := ⟨f - 1, by omega⟩
      obtain ⟨g, rfl⟩ : ∃ g', g = g' + 1 := ⟨g - 1, by omega⟩
      simp only [leavesNode]
      congr 1
      apply List.map_congr_left
      intro v hv
      rcases eq_or_ne v 0 with rfl | hv0
      · simp
      rcases eq_or_ne (v &&& HIGH) 0 with hvh | hvh
      · obtain ⟨p, hp⟩ := mem_slotsList hv
        obtain ⟨hlt, hlen⟩ := WF_spec_at hwf hj p (by rw [hp]; exact hv0)
          (by rw [hp]; exact hvh)
        rw [hp] at hlt hlen
        have h2 : ¬ v &&& HIGH ≠ 0 := by simpa using hvh
        simp only [if_neg hv0, if_neg h2]
        exact ih v f g (by omega) (by omega) (by omega)
      · simp only [if_neg hv0, if_pos hvh]

lemma workNode_succ (ns : List Internal) (f j : Nat) :
    workNode ns (f + 1) j =
      17 + ((slotsList (getNode ns j)).map
        (fun v => if v ≠ 0 ∧ v &&& HIGH = 0 then workNode ns f v else 0)).sum := by
  rw [workNode]

lemma leavesNode_succ (ns : List Internal) (f j : Nat) :
    leavesNode ns (f + 1) j =
      ((slotsList (getNode ns j)).map
        (fun v => if v = 0 then [] else if v &&& HIGH ≠ 0 then [v &&& NOTHIGH]
                  else leavesNode ns f v)).flatten := by
  rw [leavesNode]

lemma workNode_stable {ns : List Internal} (hwf : WF ns) :
    ∀ (k j f g : Nat), ns.length - j ≤ k → ns.length - j < f → ns.length - j < g →
      workNode ns f j = workNode ns g j := by
  intro k
  induction k with
  | zero =>
    intro j f g hk hf hg
    have hj : ns.length ≤ j := by omega
    obtain ⟨f, rfl⟩ : ∃ f', f = f' + 1 := ⟨f - 1, by omega⟩
    obtain ⟨g, rfl⟩ : ∃ g', g = g' + 1 := ⟨g - 1, by omega⟩
    rw [workNode_of_ge hj, workNode_of_ge hj]
  | succ k ih =>
    intro j f g hk hf hg
    rcases le_or_lt ns.length j with hj | hj
    · obtain ⟨f, rfl⟩ : ∃ f', f = f' + 1 := ⟨f - 1, by omega⟩
      obtain ⟨g, rfl⟩ : ∃ g', g = g' + 1 := ⟨g - 1, by omega⟩
      rw [workNode_of_ge hj, workNode_of_ge hj]
    · obtain ⟨f, rfl⟩ : ∃ f', f = f' + 1 := ⟨f - 1, by omega⟩
      obtain ⟨g, rfl⟩ : ∃ g', g = g' + 1 := ⟨g - 1, by omega⟩
      have hmap : (slotsList (getNode ns j)).map
          (fun v => if v ≠ 0 ∧ v &&& HIGH = 0 then workNode ns f v else 0) =
          (slotsList (getNode ns j)).map
          (fun v => if v ≠ 0 ∧ v &&& HIGH = 0 then workNode ns g v else 0) := by
        apply List.map_congr_left
        intro v hv
        by_cases hc : v ≠ 0 ∧ v &&& HIGH = 0
        · obtain ⟨p, hp⟩ := mem_slotsList hv
          obtain ⟨hlt, hlen⟩ := WF_spec_at hwf hj p (by rw [hp]; exact hc.1)
            (by rw [hp]; exact hc.2)
          rw [hp] at hlt hlen
          rw [if_pos hc, if_pos hc]
          exact ih v f g (by omega) (by omega) (by omega)
        · rw [if_neg hc, if_neg hc]
      rw [workNode_succ, workNode_succ, hmap]

lemma leavesNode_full_unfold {ns : List Internal} (hwf : WF ns) (v : Nat) :
    leavesNode ns (ns.length + 1) v = entryLeaves ns (slotsList (getNode ns v)) := by
  unfold entryLeaves
  rcases le_or_lt ns.length v with hv | hv
  · rw [leavesNode_of_ge hv, getNode_of_ge hv]
    have h1 : (slotsList emptyInternal).map
        (fun w => if w = 0 then [] else if w &&& HIGH ≠ 0 then [w &&& NOTHIGH]
                  else leavesNode ns (ns.length + 1) w) =
        (slotsList emptyInternal).map (fun _ => ([] : List Nat)) := by
      apply List.map_congr_left
      intro a ha
      rcases mem_slotsList ha with ⟨p, hp⟩
      rw [← hp]
      rfl
    rw [h1, flatten_map_nil]
  · have hmap : (slotsList (getNode ns v)).map
        (fun w => if w = 0 then [] else if w &&& HIGH ≠ 0 then [w &&& NOTHIGH]
                  else leavesNode ns ns.length w) =
        (slotsList (getNode ns v)).map
        (fun w => if w = 0 then [] else if w &&& HIGH ≠ 0 then [w &&& NOTHIGH]
                  else leavesNode ns (ns.length + 1) w) := by
      apply List.map_congr_left
      intro w hw
      rcases eq_or_ne w 0 with rfl | hw0
      · simp
      rcases eq_or_ne (w &&& HIGH) 0 with hwh | hwh
      · obtain ⟨p, hp⟩ := mem_slotsList hw
        obtain ⟨hlt, hlen⟩ := WF_spec_at hwf hv p (by rw [hp]; exact hw0)
          (by rw [hp]; exact hwh)
        rw [hp] at hlt hlen
        have h2 : ¬ w &&& HIGH ≠ 0 := by simpa using hwh
        simp only [if_neg hw0, if_neg h2]
        exact leavesNode_stable hwf ns.length w _ _ (by omega) (by omega) (by omega)
      · simp only [if_neg hw0, if_pos hwh]
    rw [leavesNode_succ, hmap]

lemma workNode_full_unfold {ns : List Internal} (hwf : WF ns) (v : Nat) :
    workNode ns (ns.length + 1) v = entryWork ns (slotsList (getNode ns v)) := by
  have hlen : (slotsList (getNode ns v)).length = 16 := by
    simp [slotsList]
  unfold entryWork
  rw [sum_map_one_add, hlen]
  have hmap : (slotsList (getNode ns v)).map
      (fun w => if w ≠ 0 ∧ w &&& HIGH = 0 then workNode ns ns.length w else 0) =
      (slotsList (getNode ns v)).map
      (fun w => if w ≠ 0 ∧ w &&& HIGH = 0 then workNode ns (ns.length + 1) w else 0) := by
    rcases le_or_lt ns.length v with hv | hv
    · apply List.map_congr_left
      intro a ha
      rcases mem_slotsList ha with ⟨p, hp⟩
      rw [getNode_of_ge hv] at hp
      rw [← hp]
      simp [emptyInternal]
    · apply List.map_congr_left
      intro w hw
      by_cases hc : w ≠ 0 ∧ w &&& HIGH = 0
      · obtain ⟨p, hp⟩ := mem_slotsList hw
        obtain ⟨hlt, hl2⟩ := WF_spec_at hwf hv p (by rw [hp]; exact hc.1)
          (by rw [hp]; exact hc.2)
        rw [hp] at hlt hl2
        rw [if_pos hc, if_pos hc]
        exact workNode_stable hwf ns.length w _ _ (by omega) (by omega) (by omega)
      · rw [if_neg hc, if_neg hc]
  conv_lhs => rw [workNode_succ]
  rw [hmap]
  omega

lemma entryWork_cons (ns : List Internal) (v : Nat) (e : List Nat) :
    entryWork ns (v :: e) =
      1 + (if v ≠ 0 ∧ v &&& HIGH = 0 then workNode ns (ns.length + 1) v else 0) +
        entryWork ns e := by
  simp [entryWork]
  omega

lemma entryWork_pos (ns : List Internal) (e : List Nat) : 1 ≤ entryWork ns e := by
  simp [entryWork]

lemma stackWork_cons (ns : List Internal) (e : List Nat) (rest : List (List Nat)) :
    stackWork ns (e :: rest) = entryWork ns e + stackWork ns rest := by
  simp [stackWork]

lemma entryLeaves_cons (ns : List Internal) (v : Nat) (e : List Nat) :
    entryLeaves ns (v :: e) =
      (if v = 0 then [] else if v &&& HIGH ≠ 0 then [v &&& NOTHIGH]
       else leavesNode ns (ns.length + 1) v) ++ entryLeaves ns e := by
  simp [entryLeaves]

lemma entryLeaves_nil (ns : List Internal) : entryLeaves ns [] = [] := rfl

lemma stackLeaves_cons (ns : List Internal) (e : List Nat) (rest : List (List Nat)) :
    stackLeaves ns (e :: rest) = entryLeaves ns e ++ stackLeaves ns rest := by
  simp [stackLeaves]

lemma collect_spec {ns : List Internal} (hwf : WF ns) :
    ∀ (n : Nat) (stack : List (List Nat)), stackWork ns stack ≤ n →
      collect ns n stack = some (stackLeaves ns stack) := by
  intro n
  induction n with
  | zero =>
    intro stack h
    cases stack with
    | nil => rfl
    | cons e rest =>
      exfalso
      rw [stackWork_cons] at h
      have := entryWork_pos ns e
      omega
  | succ n ih =>
    intro stack h
    cases stack with
    | nil => rfl
    | cons e rest =>
      cases e with
      | nil =>
        show collect ns n rest = _
        rw [stackLeaves_cons, entryLeaves_nil, List.nil_append]
        apply ih
        rw [stackWork_cons] at h
        have := entryWork_pos ns ([] : List Nat)
        omega
      | cons v e =>
        rw [stackWork_cons, entryWork_cons] at h
        rcases eq_or_ne v 0 with rfl | hv0
        · show collect ns n (e :: rest) = _
          rw [if_neg (by simp)] at h
          rw [stackLeaves_cons, entryLeaves_cons, if_pos rfl, List.nil_append,
            ← stackLeaves_cons]
          apply ih
          rw [stackWork_cons]
          omega
        · show (if v = 0 then collect ns n (e :: rest)
                else if v &&& HIGH ≠ 0 then
                  (collect ns n (e :: rest)).map fun l => (v &&& NOTHIGH) :: l
                else collect ns n (slotsList (getNode ns v) :: e :: rest)) = _
          rw [if_neg hv0]
          rcases eq_or_ne (v &&& HIGH) 0 with hvh | hvh
          · rw [if_neg (by simpa using hvh)]
            rw [if_pos ⟨hv0, hvh⟩] at h
            have hw : stackWork ns (slotsList (getNode ns v) :: e :: rest) ≤ n := by
              rw [stackWork_cons, stackWork_cons, ← workNode_full_unfold hwf]
              omega
            rw [ih _ hw]
            rw [stackLeaves_cons, stackLeaves_cons, stackLeaves_cons,
              entryLeaves_cons, if_neg hv0, if_neg (by simpa using hvh),
              leavesNode_full_unfold hwf, List.append_assoc]
          · rw [if_pos hvh]
            have hw : stackWork ns (e :: rest) ≤ n := by
              rw [if_neg (fun hc => hvh hc.2)] at h
              rw [stackWork_cons]
              omega
            rw [ih _ hw]
            rw [stackLeaves_cons, stackLeaves_cons, entryLeaves_cons,
              if_neg hv0, if_pos hvh]
            rfl

lemma items_eq_leaves {t : BinTrie} (hwf : WF t.internals) :
    t.items = some t.leaves := by
  show collect _ _ _ = _
  rw [collect_spec hwf _ _ (le_refl _)]
  unfold itemsInit BinTrie.leaves
  rw [stackLeaves_cons]
  show some (entryLeaves _ _ ++ []) = _
  rw [List.append_nil, ← leavesNode_full_unfold hwf]

lemma slot_mem_slotsList (nd : Internal) (p : Fin 16) : nd p ∈ slotsList nd :=
  List.mem_map_of_mem nd (List.mem_finRange p)

lemma getFrom_succ (key : Nat → Fin 16) (f : Nat) (ns : List Internal) (j i : Nat) :
    getFrom key (f + 1) ns j i =
      if getNode ns j (key i) = 0 then none
      else if getNode ns j (key i) &&& HIGH ≠ 0 then
        some (getNode ns j (key i) &&& NOTHIGH)
      else getFrom key f ns (getNode ns j (key i)) (i + 1) := by
  rw [getFrom]

lemma insertFrom_zero (item : Nat) (key : Nat → Fin 16) (lookup : Nat → Nat → Fin 16)
    (ns : List Internal) (index i : Nat) :
    insertFrom item key lookup 0 ns index i =
      if getNode ns index (key i) = 0 then
        some (setSlot ns index (key i) (item ||| HIGH), true)
      else some (ns, false) := by
  rw [insertFrom]

lemma insertFrom_succ (item : Nat) (key : Nat → Fin 16) (lookup : Nat → Nat → Fin 16)
    (r : Nat) (ns : List Internal) (index i : Nat) :
    insertFrom item key lookup (r + 1) ns index i =
      if getNode ns index (key i) = 0 then
        some (setSlot ns index (key i) (item ||| HIGH), true)
      else if getNode ns index (key i) &&& HIGH ≠ 0 then
        if (ns.length % 2 ^ 32) &&& HIGH ≠ 0 then none
        else
          insertFrom item key lookup r
            (setSlot (ns ++ [Function.update emptyInternal
                (lookup (getNode ns index (key i) &&& NOTHIGH) (i + 1))
                (getNode ns index (key i))])
              index (key i) (ns.length % 2 ^ 32))
            (ns.length % 2 ^ 32) (i + 1)
      else insertFrom item key lookup r ns (getNode ns index (key i)) (i + 1) := by
  rw [insertFrom]

lemma getFrom_key_agree {ns : List Internal} {K K' : Nat → Fin 16} :
    ∀ (f j i : Nat), (∀ m, i ≤ m → K m = K' m) →
      getFrom K f ns j i = getFrom K' f ns j i := by
  intro f
  induction f with
  | zero => intro j i h; rfl
  | succ f ih =>
    intro j i h
    rw [getFrom_succ, getFrom_succ, h i (le_refl i)]
    rcases eq_or_ne (getNode ns j (K' i)) 0 with h0 | h0
    · rw [if_pos h0, if_pos h0]
    · rw [if_neg h0, if_neg h0]
      rcases eq_or_ne (getNode ns j (K' i) &&& HIGH) 0 with hh | hh
      · rw [if_neg (by simpa using hh), if_neg (by simpa using hh)]
        exact ih _ (i + 1) (fun m hm => h m (by omega))
      · rw [if_pos hh, if_pos hh]

lemma getFrom_iff_mem_leaves {ns : List Internal} :
    ∀ (f j i v : Nat),
      (∃ K, getFrom K f ns j i = some v) ↔ v ∈ leavesNode ns f j := by
  intro f
  induction f with
  | zero =>
    intro j i v
    constructor
    · rintro ⟨K, hK⟩
      exact absurd hK (by simp [getFrom])
    · intro hv
      exact absurd hv (by simp [leavesNode])
  | succ f ih =>
    intro j i v
    rw [leavesNode_succ]
    constructor
    · rintro ⟨K, hK⟩
      rw [getFrom_succ] at hK
      rcases eq_or_ne (getNode ns j (K i)) 0 with h0 | h0
      · rw [if_pos h0] at hK
        exact absurd hK (by simp)
      · rw [if_neg h0] at hK
        rcases eq_or_ne (getNode ns j (K i) &&& HIGH) 0 with hh | hh
        · rw [if_neg (by simpa using hh)] at hK
          have hmem := (ih (getNode ns j (K i)) (i + 1) v).mp ⟨K, hK⟩
          apply List.mem_flatten.mpr
          refine ⟨_, List.mem_map_of_mem _ (slot_mem_slotsList (getNode ns j) (K i)), ?_⟩
          rw [if_neg h0, if_neg (by simpa using hh)]
          exact hmem
        · rw [if_pos hh] at hK
          apply List.mem_flatten.mpr
          refine ⟨_, List.mem_map_of_mem _ (slot_mem_slotsList (getNode ns j) (K i)), ?_⟩
          rw [if_neg h0, if_pos hh]
          simp only [Option.some_inj] at hK
          simp [hK]
    · intro hv
      rcases List.mem_flatten.mp hv with ⟨l, hl, hvl⟩
      rcases List.mem_map.mp hl with ⟨w, hw, rfl⟩
      rcases mem_slotsList hw with ⟨p, hp⟩
      rcases eq_or_ne w 0 with rfl | hw0
      · rw [if_pos rfl] at hvl
        exact absurd hvl (by simp)
      rw [if_neg hw0] at hvl
      rcases eq_or_ne (w &&& HIGH) 0 with hwh | hwh
      · rw [if_neg (by simpa using hwh)] at hvl
        rcases (ih w (i + 1) v).mpr hvl with ⟨K', hK'⟩
        refine ⟨fun m => if m = i then p else K' m, ?_⟩
        rw [getFrom_succ]
        rw [show (if i = i then p else K' i) = p from if_pos rfl]
        rw [hp, if_neg hw0, if_neg (by simpa using hwh)]
        rw [getFrom_key_agree f w (i + 1) (fun m hm => by rw [if_neg (by omega)])]
        exact hK'
      · rw [if_pos hwh] at hvl
        refine ⟨fun _ => p, ?_⟩
        rw [getFrom_succ, hp, if_neg hw0, if_pos hwh,
          List.mem_singleton.mp hvl]

/-- No-sharing invariant: an internal reference value occurs in at most one
slot of the whole arena (every non-root node has a unique parent; the spec's
"strict tree, no sharing, no cycles"). -/
def UniqueRefs (ns : List Internal) : Prop :=
  ∀ (k1 k2 : Fin ns.length) (p1 p2 : Fin 16),
    getNode ns k1 p1 = getNode ns k2 p2 → getNode ns k1 p1 ≠ 0 →
    getNode ns k1 p1 &&& HIGH = 0 → (k1 : Nat) = k2 ∧ p1 = p2

instance (ns : List Internal) : Decidable (UniqueRefs ns) := by
  unfold UniqueRefs; infer_instance

/-- The tree invariant of reachable arenas. -/
def TreeInv (ns : List Internal) : Prop :=
  WF ns ∧ UniqueRefs ns

instance (ns : List Internal) : Decidable (TreeInv ns) := by
  unfold TreeInv; infer_instance

/-- Fuelled descendant list of arena node `j` (both ends included). -/
def descL (ns : List Internal) : (fuel : Nat) → (j : Nat) → List Nat
  | 0, j => [j]
  | f + 1, j =>
    j :: (((slotsList (getNode ns j)).filter
      (fun v => decide (v ≠ 0 ∧ v &&& HIGH = 0))).map (descL ns f)).flatten

/-- All descendants of node `j` (the fuel `ns.length` is always enough). -/
def descFull (ns : List Internal) (j : Nat) : List Nat :=
  descL ns ns.length j

lemma self_mem_descL (ns : List Internal) (f j : Nat) : j ∈ descL ns f j := by
  cases f <;> simp [descL]

lemma mem_descL_succ {ns : List Internal} {f j x : Nat} :
    x ∈ descL ns (f + 1) j ↔
      x = j ∨ ∃ p : Fin 16, getNode ns j p ≠ 0 ∧ getNode ns j p &&& HIGH = 0 ∧
        x ∈ descL ns f (getNode ns j p) := by
  constructor
  · intro hx
    rcases List.mem_cons.mp hx with h | h
    · exact Or.inl h
    · rcases List.mem_flatten.mp h with ⟨l, hl, hxl⟩
      rcases List.mem_map.mp hl with ⟨v, hv, rfl⟩
      rcases List.mem_filter.mp hv with ⟨hvs, hvc⟩
      rcases mem_slotsList hvs with ⟨p, hp⟩
      have hvc2 : v ≠ 0 ∧ v &&& HIGH = 0 := of_decide_eq_true hvc
      exact Or.inr ⟨p, by rw [hp]; exact hvc2.1, by rw [hp]; exact hvc2.2,
        by rw [hp]; exact hxl⟩
  · rintro (rfl | ⟨p, h0, hh, hx⟩)
    · exact List.mem_cons_self _ _
    · apply List.mem_cons_of_mem
      apply List.mem_flatten.mpr
      refine ⟨descL ns f (getNode ns j p), List.mem_map_of_mem _ ?_, hx⟩
      exact List.mem_filter.mpr ⟨slot_mem_slotsList _ p, decide_eq_true ⟨h0, hh⟩⟩

lemma descL_bounds {ns : List Internal} (hwf : WF ns) :
    ∀ (f j x : Nat), x ∈ descL ns f j → j ≤ x ∧ (j < ns.length → x < ns.length) := by
  intro f
  induction f with
  | zero =>
    intro j x hx
    rcases List.mem_singleton.mp hx with rfl
    exact ⟨le_refl _, fun h => h⟩
  | succ f ih =>
    intro j x hx
    rcases mem_descL_succ.mp hx with rfl | ⟨p, h0, hh, hx⟩
    · exact ⟨le_refl _, fun h => h⟩
    · rcases le_or_lt ns.length j with hj | hj
      · rw [getNode_of_ge hj] at h0
        exact absurd rfl h0
      · obtain ⟨hlt, hlen⟩ := WF_spec hwf hj h0 hh
        obtain ⟨h1, h2⟩ := ih _ _ hx
        exact ⟨by omega, fun _ => h2 hlen⟩

lemma descL_mono {ns : List Internal} :
    ∀ {f g : Nat}, f ≤ g → ∀ {j x : Nat}, x ∈ descL ns f j → x ∈ descL ns g j := by
  intro f
  induction f with
  | zero =>
    intro g hg j x hx
    rcases List.mem_singleton.mp hx with rfl
    exact self_mem_descL ns g x
  | succ f ih =>
    intro g hg j x hx
    obtain ⟨g, rfl⟩ : ∃ g', g = g' + 1 := ⟨g - 1, by omega⟩
    rcases mem_descL_succ.mp hx with rfl | ⟨p, h0, hh, hx⟩
    · exact self_mem_descL ns _ x
    · exact mem_descL_succ.mpr (Or.inr ⟨p, h0, hh, ih (by omega) hx⟩)

lemma descL_cap {ns : List Internal} (hwf : WF ns) :
    ∀ (f j x : Nat), x ∈ descL ns f j → x ∈ descL ns (x - j) j := by
  intro f
  induction f with
  | zero =>
    intro j x hx
    rcases List.mem_singleton.mp hx with rfl
    exact self_mem_descL ns _ x
  | succ f ih =>
    intro j x hx
    rcases mem_descL_succ.mp hx with rfl | ⟨p, h0, hh, hx⟩
    · exact self_mem_descL ns _ x
    · rcases le_or_lt ns.length j with hj | hj
      · rw [getNode_of_ge hj] at h0
        exact absurd rfl h0
      · obtain ⟨hlt, _⟩ := WF_spec hwf hj h0 hh
        have h1 := ih _ _ hx
        have h2 := (descL_bounds hwf _ _ _ hx).1
        obtain ⟨k, hk⟩ : ∃ k, x - j = k + 1 := ⟨x - j - 1, by omega⟩
        rw [hk]
        refine mem_descL_succ.mpr (Or.inr ⟨p, h0, hh, descL_mono (by omega) h1⟩)

lemma mem_descFull_of_mem {ns : List Internal} (hwf : WF ns) {f j x : Nat}
    (hj : j < ns.length) (hx : x ∈ descL ns f j) : x ∈ descFull ns j := by
  have hb := descL_bounds hwf f j x hx
  exact descL_mono (by have := hb.2 hj; omega) (descL_cap hwf f j x hx)

lemma descFull_child {ns : List Internal} (hwf : WF ns) {j v x : Nat}
    (hj : j < ns.length) (p : Fin 16) (hp : getNode ns j p = v) (h0 : v ≠ 0)
    (hh : v &&& HIGH = 0) (hx : x ∈ descFull ns v) : x ∈ descFull ns j := by
  have hvlen : v < ns.length := by
    have := WF_spec_at hwf hj p (by rw [hp]; exact h0) (by rw [hp]; exact hh)
    rw [hp] at this
    exact this.2
  have hcap := descL_cap hwf _ _ _ hx
  apply mem_descFull_of_mem hwf hj
  exact mem_descL_succ.mpr (Or.inr ⟨p, by rw [hp]; exact h0, by rw [hp]; exact hh,
    by rw [hp]; exact hcap⟩)

lemma descFull_trans {ns : List Internal} (hwf : WF ns) {j k x : Nat}
    (hj : j < ns.length) (hk : k ∈ descFull ns j) (hx : x ∈ descFull ns k) :
    x ∈ descFull ns j := by
  unfold descFull at hk
  have main : ∀ (f j : Nat), j < ns.length → k ∈ descL ns f j →
      x ∈ descFull ns j := by
    intro f
    induction f with
    | zero =>
      intro j hjl hkj
      rcases List.mem_singleton.mp hkj with rfl
      exact hx
    | succ f ih =>
      intro j hjl hkj
      rcases mem_descL_succ.mp hkj with rfl | ⟨p, h0, hh, hkd⟩
      · exact hx
      · have hvlen : getNode ns j p < ns.length := (WF_spec hwf hjl h0 hh).2
        exact descFull_child hwf hjl p rfl h0 hh (ih _ hvlen hkd)
  exact main _ _ hj hk

lemma unique_spec {ns : List Internal} (hU : UniqueRefs ns) {k1 k2 : Nat}
    (h1 : k1 < ns.length) (h2 : k2 < ns.length) {p1 p2 : Fin 16}
    (heq : getNode ns k1 p1 = getNode ns k2 p2) (h0 : getNode ns k1 p1 ≠ 0)
    (hh : getNode ns k1 p1 &&& HIGH = 0) : k1 = k2 ∧ p1 = p2 := by
  have := hU ⟨k1, h1⟩ ⟨k2, h2⟩ p1 p2 heq h0 hh
  exact this

lemma desc_parent {ns : List Internal} (hwf : WF ns) :
    ∀ (f j x : Nat), j < ns.length → x ∈ descL ns f j → x ≠ j →
      ∃ (k : Nat) (p : Fin 16), k ∈ descFull ns j ∧ k < ns.length ∧
        getNode ns k p = x ∧ x ≠ 0 ∧ x &&& HIGH = 0 := by
  intro f
  induction f with
  | zero =>
    intro j x hj hx hne
    exact absurd (List.mem_singleton.mp hx) hne
  | succ f ih =>
    intro j x hj hx hne
    rcases mem_descL_succ.mp hx with rfl | ⟨p, h0, hh, hxd⟩
    · exact absurd rfl hne
    · have hvlen : getNode ns j p < ns.length := (WF_spec hwf hj h0 hh).2
      rcases eq_or_ne x (getNode ns j p) with rfl | hxv
      · exact ⟨j, p, self_mem_descL ns _ j, hj, rfl, h0, hh⟩
      · obtain ⟨k, r, hk, hklen, hkr, hx0, hxh⟩ := ih _ _ hvlen hxd hxv
        refine ⟨k, r, ?_, hklen, hkr, hx0, hxh⟩
        exact descFull_child hwf hj p rfl h0 hh hk

lemma desc_disjoint_sib {ns : List Internal} (hT : TreeInv ns) {c : Nat}
    (hc : c < ns.length) {p q : Fin 16} (hpq : p ≠ q)
    (hu0 : getNode ns c p ≠ 0) (huh : getNode ns c p &&& HIGH = 0)
    (hw0 : getNode ns c q ≠ 0) (hwh : getNode ns c q &&& HIGH = 0) :
    ∀ x, x ∈ descFull ns (getNode ns c p) → x ∉ descFull ns (getNode ns c q) := by
  obtain ⟨hwf, hU⟩ := hT
  have hup := WF_spec hwf hc hu0 huh
  have hwp := WF_spec hwf hc hw0 hwh
  intro x
  induction x using Nat.strong_induction_on with
  | h x ih =>
    intro hxu hxw
    rcases eq_or_ne x (getNode ns c p) with heq | hxu'
    · rcases eq_or_ne x (getNode ns c q) with heq2 | hxw'
      · obtain ⟨_, hp2⟩ := unique_spec hU hc hc (heq.symm.trans heq2) hu0 huh
        exact hpq hp2
      · obtain ⟨k, r, hk, hklen, hkr, hx0, hxh⟩ :=
          desc_parent hwf _ _ _ hwp.2 hxw hxw'
        obtain ⟨hck, hpr⟩ := unique_spec hU hc hklen (heq ▸ hkr.symm) hu0 huh
        rw [← hck] at hk
        have := (descL_bounds hwf _ _ _ hk).1
        omega
    · rcases eq_or_ne x (getNode ns c q) with heq2 | hxw'
      · obtain ⟨k, r, hk, hklen, hkr, hx0, hxh⟩ :=
          desc_parent hwf _ _ _ hup.2 hxu hxu'
        obtain ⟨hck, hpr⟩ := unique_spec hU hc hklen (heq2 ▸ hkr.symm) hw0 hwh
        rw [← hck] at hk
        have := (descL_bounds hwf _ _ _ hk).1
        omega
      · obtain ⟨k1, r1, hk1, hk1len, hk1r, hx0, hxh⟩ :=
          desc_parent hwf _ _ _ hup.2 hxu hxu'
        obtain ⟨k2, r2, hk2, hk2len, hk2r, _, _⟩ :=
          desc_parent hwf _ _ _ hwp.2 hxw hxw'
        obtain ⟨hk12, hr12⟩ := unique_spec hU hk1len hk2len
          (by rw [hk1r, hk2r]) (by rw [hk1r]; exact hx0) (by rw [hk1r]; exact hxh)
        have hkx : k1 < x := by
          have h3 := WF_spec_at hwf hk1len r1 (by rw [hk1r]; exact hx0)
            (by rw [hk1r]; exact hxh)
          rw [hk1r] at h3
          exact h3.1
        exact ih k1 hkx hk1 (by rw [hk12]; exact hk2)

lemma leavesNode_frame_desc {ns ns2 : List Internal} (hwf : WF ns) :
    ∀ (f u : Nat), u < ns.length →
      (∀ k, k ∈ descFull ns u → getNode ns2 k = getNode ns k) →
      leavesNode ns2 f u = leavesNode ns f u := by
  intro f
  induction f with
  | zero => intro u _ _; rfl
  | succ f ih =>
    intro u hu hagree
    rw [leavesNode_succ, leavesNode_succ,
      hagree u (self_mem_descL ns _ u)]
    congr 1
    apply List.map_congr_left
    intro v hv
    rcases eq_or_ne v 0 with rfl | hv0
    · simp
    rcases eq_or_ne (v &&& HIGH) 0 with hvh | hvh
    · obtain ⟨pp, hp⟩ := mem_slotsList hv
      have hmem : v ∈ descFull ns u :=
        descFull_child hwf hu pp hp hv0 hvh (self_mem_descL ns _ v)
      have hvlen : v < ns.length := by
        have := WF_spec_at hwf hu pp (by rw [hp]; exact hv0)
          (by rw [hp]; exact hvh)
        rw [hp] at this
        exact this.2
      have h2 : ¬ v &&& HIGH ≠ 0 := by simpa using hvh
      simp only [if_neg hv0, if_neg h2]
      exact ih v hvlen (fun k hk => hagree k (descFull_trans hwf hu hmem hk))
    · simp only [if_neg hv0, if_pos hvh]

lemma getFrom_frame_desc {ns ns2 : List Internal} (hwf : WF ns) (K : Nat → Fin 16) :
    ∀ (f u i : Nat), u < ns.length →
      (∀ k, k ∈ descFull ns u → getNode ns2 k = getNode ns k) →
      getFrom K f ns2 u i = getFrom K f ns u i := by
  intro f
  induction f with
  | zero => intro u i _ _; rfl
  | succ f ih =>
    intro u i hu hagree
    rw [getFrom_succ, getFrom_succ, hagree u (self_mem_descL ns _ u)]
    rcases eq_or_ne (getNode ns u (K i)) 0 with h0 | h0
    · rw [if_pos h0, if_pos h0]
    rw [if_neg h0, if_neg h0]
    rcases eq_or_ne (getNode ns u (K i) &&& HIGH) 0 with hh | hh
    · rw [if_neg (by simpa using hh), if_neg (by simpa using hh)]
      have hmem : getNode ns u (K i) ∈ descFull ns u :=
        descFull_child hwf hu (K i) rfl h0 hh (self_mem_descL ns _ _)
      have hvlen : getNode ns u (K i) < ns.length := (WF_spec hwf hu h0 hh).2
      exact ih _ (i + 1) hvlen (fun k hk => hagree k (descFull_trans hwf hu hmem hk))
    · rw [if_pos hh, if_pos hh]

lemma getNode_collision_self {ns : List Internal} {c : Nat} (hc : c < ns.length)
    (p : Fin 16) (nd : Internal) (L : Nat) :
    getNode (setSlot (ns ++ [nd]) c p L) c =
      Function.update (getNode ns c) p L := by
  rw [getNode_setSlot_self (by simp; omega), getNode_append_left hc]

lemma getNode_collision_other {ns : List Internal} {c j : Nat} (hj : j ≠ c)
    (hjl : j < ns.length) (p : Fin 16) (nd : Internal) (L : Nat) :
    getNode (setSlot (ns ++ [nd]) c p L) j = getNode ns j := by
  rw [getNode_setSlot_ne (Ne.symm hj), getNode_append_left hjl]

lemma getNode_collision_new {ns : List Internal} {c : Nat} (hc : c < ns.length)
    (p : Fin 16) (nd : Internal) (L : Nat) :
    getNode (setSlot (ns ++ [nd]) c p L) ns.length = nd := by
  rw [getNode_setSlot_ne (by omega), getNode_append_right]

lemma length_collision (ns : List Internal) (c : Nat) (p : Fin 16)
    (nd : Internal) (L : Nat) :
    (setSlot (ns ++ [nd]) c p L).length = ns.length + 1 := by
  simp [setSlot]

lemma WF_of_getNode {ns : List Internal}
    (h : ∀ j, j < ns.length → ∀ p : Fin 16,
      getNode ns j p ≠ 0 → getNode ns j p &&& HIGH = 0 →
        j < getNode ns j p ∧ getNode ns j p < ns.length) : WF ns := by
  intro j p
  have hg : ns.get j = getNode ns (j : Nat) := by
    simp [getNode, List.getD_eq_getElem?_getD, List.getElem?_eq_getElem j.isLt,
      List.get_eq_getElem]
  rw [hg]
  exact h j j.isLt p

lemma TreeInv_setLeaf {ns : List Internal} (hT : TreeInv ns) {c : Nat}
    (hc : c < ns.length) (p : Fin 16) (x : Nat) :
    TreeInv (setSlot ns c p (x ||| HIGH)) := by
  obtain ⟨hwf, hU⟩ := hT
  have hlen : (setSlot ns c p (x ||| HIGH)).length = ns.length := length_setSlot ns c p _
  have hget : ∀ (j : Nat) (q : Fin 16), j < ns.length →
      getNode (setSlot ns c p (x ||| HIGH)) j q ≠ 0 →
      getNode (setSlot ns c p (x ||| HIGH)) j q &&& HIGH = 0 →
      getNode (setSlot ns c p (x ||| HIGH)) j q = getNode ns j q := by
    intro j q hj h0 hh
    rcases eq_or_ne j c with rfl | hjc
    · rw [getNode_setSlot_self hj] at h0 hh ⊢
      rcases eq_or_ne q p with rfl | hqp
      · rw [Function.update_same] at hh
        exact absurd hh (lor_high_and_high x)
      · rw [Function.update_noteq hqp]
    · rw [getNode_setSlot_ne (fun h => hjc h.symm)]
  constructor
  · apply WF_of_getNode
    intro j hj q h0 hh
    rw [hlen] at hj
    have e := hget j q hj h0 hh
    rw [e] at h0 hh
    rw [e, hlen]
    exact WF_spec hwf hj h0 hh
  · intro k1 k2 p1 p2 heq h0 hh
    have hk1 : (k1 : Nat) < ns.length := by have := k1.isLt; omega
    have hk2 : (k2 : Nat) < ns.length := by have := k2.isLt; omega
    have e1 := hget k1 p1 hk1 h0 hh
    have e2 := hget k2 p2 hk2 (by rw [← heq]; exact h0) (by rw [← heq]; exact hh)
    rw [e1] at heq h0 hh
    rw [e2] at heq
    exact unique_spec hU hk1 hk2 heq h0 hh

lemma TreeInv_collision {ns : List Internal} (hT : TreeInv ns) {c : Nat}
    (hc : c < ns.length) (p q : Fin 16) {m : Nat} (hm : m &&& HIGH ≠ 0) :
    TreeInv (setSlot (ns ++ [Function.update emptyInternal q m]) c p ns.length) := by
  obtain ⟨hwf, hU⟩ := hT
  have hlen3 : (setSlot (ns ++ [Function.update emptyInternal q m]) c p
      ns.length).length = ns.length + 1 := length_collision ns c p _ _
  have hval : ∀ (j : Nat) (r : Fin 16), j < ns.length + 1 →
      getNode (setSlot (ns ++ [Function.update emptyInternal q m]) c p ns.length)
        j r ≠ 0 →
      getNode (setSlot (ns ++ [Function.update emptyInternal q m]) c p ns.length)
        j r &&& HIGH = 0 →
      (j = c ∧ r = p ∧
        getNode (setSlot (ns ++ [Function.update emptyInternal q m]) c p ns.length)
          j r = ns.length) ∨
      (j < ns.length ∧
        getNode (setSlot (ns ++ [Function.update emptyInternal q m]) c p ns.length)
          j r = getNode ns j r ∧ ¬(j = c ∧ r = p)) := by
    intro j r hj h0 hh
    rcases eq_or_ne j ns.length with rfl | hjn
    · rw [getNode_collision_new hc p _ _] at h0 hh
      rcases eq_or_ne r q with rfl | hrq
      · rw [Function.update_same] at hh
        exact absurd hh hm
      · rw [Function.update_noteq hrq] at h0
        exact absurd rfl h0
    · have hjl : j < ns.length := by omega
      rcases eq_or_ne j c with rfl | hjc
      · rw [getNode_collision_self hc p _ _] at h0 hh ⊢
        rcases eq_or_ne r p with rfl | hrp
        · rw [Function.update_same]
          exact Or.inl ⟨rfl, rfl, rfl⟩
        · rw [Function.update_noteq hrp]
          exact Or.inr ⟨hjl, rfl, fun hcon => hrp hcon.2⟩
      · rw [getNode_collision_other hjc hjl p _ _]
        exact Or.inr ⟨hjl, rfl, fun hcon => hjc hcon.1⟩
  constructor
  · apply WF_of_getNode
    intro j hj r h0 hh
    rw [hlen3] at hj
    rcases hval j r hj h0 hh with ⟨rfl, rfl, hv⟩ | ⟨hjl, hv, _⟩
    · rw [hv, hlen3]
      omega
    · rw [hv] at h0 hh ⊢
      rw [hlen3]
      have := WF_spec hwf hjl h0 hh
      omega
  · intro k1 k2 p1 p2 heq h0 hh
    have hk1 : (k1 : Nat) < ns.length + 1 := by have := k1.isLt; omega
    have hk2 : (k2 : Nat) < ns.length + 1 := by have := k2.isLt; omega
    have h02 := heq ▸ h0
    have hh2 := heq ▸ hh
    rcases hval k1 p1 hk1 h0 hh with ⟨e1, e1p, hv1⟩ | ⟨h1l, hv1, hno1⟩
    · rcases hval k2 p2 hk2 h02 hh2 with ⟨e2, e2p, hv2⟩ | ⟨h2l, hv2, hno2⟩
      · exact ⟨by rw [e1, e2], by rw [e1p, e2p]⟩
      · exfalso
        rw [hv1] at heq
        rw [hv2] at heq
        have hwfk := WF_spec_at hwf h2l p2 (by rw [← heq]; omega)
          (by rw [← heq]; rw [hv1] at hh; exact hh)
        omega
    · rcases hval k2 p2 hk2 h02 hh2 with ⟨e2, e2p, hv2⟩ | ⟨h2l, hv2, hno2⟩
      · exfalso
        rw [hv1] at heq
        rw [hv2] at heq
        have hwfk := WF_spec_at hwf h1l p1 (by rw [heq]; omega)
          (by rw [heq]; rw [hv2] at hh2; exact hh2)
        omega
      · rw [hv1] at heq h0 hh
        rw [hv2] at heq
        exact unique_spec hU h1l h2l heq h0 hh

lemma flatten_map_swap {α β : Type} [DecidableEq α] :
    ∀ (l : List α) (F G : α → List β) (a : α), l.Nodup → a ∈ l →
      (∀ q, q ∈ l → q ≠ a → F q = G q) →
      ((l.map G).flatten : Multiset β) + (F a : Multiset β) =
        ((l.map F).flatten : Multiset β) + (G a : Multiset β) := by
  intro l
  induction l with
  | nil => intro F G a _ ha _; exact absurd ha (List.not_mem_nil a)
  | cons b l ih =>
    intro F G a hnd ha hFG
    obtain ⟨hbl, hndl⟩ := List.nodup_cons.mp hnd
    rcases List.mem_cons.mp ha with rfl | hal
    · have htl : l.map F = l.map G := by
        apply List.map_congr_left
        intro q hq
        exact hFG q (List.mem_cons_of_mem _ hq) (fun hqa => hbl (hqa ▸ hq))
      simp only [List.map_cons, List.flatten_cons]
      rw [htl, ← Multiset.coe_add, ← Multiset.coe_add]
      abel
    · have hba : b ≠ a := fun h => hbl (h ▸ hal)
      have hFb : F b = G b := hFG b (List.mem_cons_self _ _) hba
      have hrec := ih F G a hndl hal
        (fun q hq hqa => hFG q (List.mem_cons_of_mem _ hq) hqa)
      simp only [List.map_cons, List.flatten_cons]
      rw [hFb, ← Multiset.coe_add, ← Multiset.coe_add, add_assoc, add_assoc,
        hrec]

lemma master_write {ns : List Internal} (hT : TreeInv ns) {c : Nat}
    (hc : c < ns.length) (p : Fin 16) {item : Nat} (hitem : item < HIGH)
    (hslot : getNode ns c p = 0) :
    TreeInv (setSlot ns c p (item ||| HIGH)) ∧
    (setSlot ns c p (item ||| HIGH)).length = ns.length ∧
    (∀ j, j ≠ c → getNode (setSlot ns c p (item ||| HIGH)) j = getNode ns j) ∧
    (∀ f, 1 ≤ f →
      (leavesNode (setSlot ns c p (item ||| HIGH)) f c : Multiset Nat) =
        (leavesNode ns f c : Multiset Nat) + {item}) := by
  obtain ⟨hwf, hU⟩ := hT
  refine ⟨TreeInv_setLeaf ⟨hwf, hU⟩ hc p item, length_setSlot ns c p _,
    fun j hj => getNode_setSlot_ne (Ne.symm hj) p _, ?_⟩
  intro f hf
  obtain ⟨f, rfl⟩ : ∃ f', f = f' + 1 := ⟨f - 1, by omega⟩
  rw [leavesNode_succ, leavesNode_succ, getNode_setSlot_self hc]
  have hswap := flatten_map_swap (List.finRange 16)
    ((fun v => if v = 0 then [] else if v &&& HIGH ≠ 0 then [v &&& NOTHIGH]
      else leavesNode ns f v) ∘ getNode ns c)
    ((fun v => if v = 0 then [] else if v &&& HIGH ≠ 0 then [v &&& NOTHIGH]
      else leavesNode (setSlot ns c p (item ||| HIGH)) f v) ∘
      Function.update (getNode ns c) p (item ||| HIGH))
    p (List.nodup_finRange 16) (List.mem_finRange p) ?_
  · have hF : ((fun v => if v = 0 then [] else if v &&& HIGH ≠ 0 then [v &&& NOTHIGH]
        else leavesNode ns f v) ∘ getNode ns c) p = ([] : List Nat) := by
      simp [Function.comp_apply, hslot]
    have hG : ((fun v => if v = 0 then [] else if v &&& HIGH ≠ 0 then [v &&& NOTHIGH]
        else leavesNode (setSlot ns c p (item ||| HIGH)) f v) ∘
        Function.update (getNode ns c) p (item ||| HIGH)) p = [item] := by
      simp only [Function.comp_apply, Function.update_same]
      rw [if_neg (lor_high_ne_zero item), if_pos (lor_high_and_high item),
        lor_high_and_nothigh hitem]
    rw [hF, hG] at hswap
    have hnil : (([] : List Nat) : Multiset Nat) = 0 := rfl
    rw [hnil, add_zero] at hswap
    have e1 : slotsList (Function.update (getNode ns c) p (item ||| HIGH)) =
        (List.finRange 16).map (Function.update (getNode ns c) p (item ||| HIGH)) := rfl
    have e2 : slotsList (getNode ns c) = (List.finRange 16).map (getNode ns c) := rfl
    rw [e1, e2, List.map_map, List.map_map, hswap, Multiset.coe_singleton]
  · intro q hq hqp
    simp only [Function.comp_apply, Function.update_noteq hqp]
    rcases eq_or_ne (getNode ns c q) 0 with h0 | h0
    · simp [h0]
    rcases eq_or_ne (getNode ns c q &&& HIGH) 0 with hh | hh
    · have hb := WF_spec hwf hc h0 hh
      have h2 : ¬ getNode ns c q &&& HIGH ≠ 0 := by simpa using hh
      simp only [if_neg h0, if_neg h2]
      refine (leavesNode_frame_desc hwf f _ hb.2 ?_).symm
      intro k hk
      have hkb := (descL_bounds hwf _ _ _ hk).1
      exact getNode_setSlot_ne (by omega) p _
    · simp only [if_neg h0, if_pos hh]

lemma leavesNode_single_leaf {ns : List Internal} {j : Nat} {q : Fin 16} {m : Nat}
    (hnode : getNode ns j = Function.update emptyInternal q m)
    (hm : m &&& HIGH ≠ 0) :
    ∀ f, 1 ≤ f → (leavesNode ns f j : Multiset Nat) = {m &&& NOTHIGH} := by
  intro f hf
  obtain ⟨f, rfl⟩ : ∃ f', f = f' + 1 := ⟨f - 1, by omega⟩
  rw [leavesNode_succ, hnode]
  have hswap := flatten_map_swap (List.finRange 16)
    ((fun v => if v = 0 then [] else if v &&& HIGH ≠ 0 then [v &&& NOTHIGH]
      else leavesNode ns f v) ∘ emptyInternal)
    ((fun v => if v = 0 then [] else if v &&& HIGH ≠ 0 then [v &&& NOTHIGH]
      else leavesNode ns f v) ∘ Function.update emptyInternal q m)
    q (List.nodup_finRange 16) (List.mem_finRange q) ?_
  · have hF : ((fun v => if v = 0 then [] else if v &&& HIGH ≠ 0 then [v &&& NOTHIGH]
        else leavesNode ns f v) ∘ emptyInternal) q = ([] : List Nat) := by
      simp [emptyInternal]
    have hG : ((fun v => if v = 0 then [] else if v &&& HIGH ≠ 0 then [v &&& NOTHIGH]
        else leavesNode ns f v) ∘ Function.update emptyInternal q m) q =
        [m &&& NOTHIGH] := by
      simp only [Function.comp_apply, Function.update_same]
      have hm0 : m ≠ 0 := by
        intro h
        rw [h] at hm
        exact hm rfl
      rw [if_neg hm0, if_pos hm]
    rw [hF, hG] at hswap
    have hnil : (([] : List Nat) : Multiset Nat) = 0 := rfl
    rw [hnil, add_zero] at hswap
    have hflatF : ((List.finRange 16).map
        ((fun v => if v = 0 then [] else if v &&& HIGH ≠ 0 then [v &&& NOTHIGH]
          else leavesNode ns f v) ∘ emptyInternal)).flatten = ([] : List Nat) := by
      have : ∀ a ∈ List.finRange 16,
          ((fun v => if v = 0 then [] else if v &&& HIGH ≠ 0 then [v &&& NOTHIGH]
            else leavesNode ns f v) ∘ emptyInternal) a = ([] : List Nat) := by
        intro a _
        simp [emptyInternal]
      rw [List.map_congr_left this]
      exact flatten_map_nil _
    rw [hflatF, hnil, zero_add] at hswap
    have e1 : slotsList (Function.update emptyInternal q m) =
        (List.finRange 16).map (Function.update emptyInternal q m) := rfl
    rw [e1, List.map_map, hswap, Multiset.coe_singleton]
  · intro r hr hrq
    simp only [Function.comp_apply, Function.update_noteq hrq]

lemma insert_master {item : Nat} {key : Nat → Fin 16} {lookup : Nat → Nat → Fin 16}
    (hitem : item < HIGH) :
    ∀ (r : Nat) (ns : List Internal) (c i : Nat) (ns2 : List Internal) (placed : Bool),
      TreeInv ns → c < ns.length → ns.length ≤ HIGH →
      insertFrom item key lookup r ns c i = some (ns2, placed) →
      TreeInv ns2 ∧ ns.length ≤ ns2.length ∧ ns2.length ≤ HIGH ∧
      (∀ j, j < ns.length → j ∉ descFull ns c → getNode ns2 j = getNode ns j) ∧
      (∀ f, r + 1 ≤ f →
        (leavesNode ns2 f c : Multiset Nat) =
          (leavesNode ns f c : Multiset Nat) + (if placed then {item} else 0)) := by
  intro r
  induction r with
  | zero =>
    intro ns c i ns2 placed hT hc hlen hins
    rw [insertFrom_zero] at hins
    rcases eq_or_ne (getNode ns c (key i)) 0 with h0 | h0
    · rw [if_pos h0] at hins
      obtain ⟨rfl, rfl⟩ : setSlot ns c (key i) (item ||| HIGH) = ns2 ∧ true = placed := by
        simpa [Prod.ext_iff] using hins
      obtain ⟨hT2, hl2, hframe, hdelta⟩ := master_write hT hc (key i) hitem h0
      refine ⟨hT2, by omega, by omega, fun j hj hjd => hframe j ?_, fun f hf => ?_⟩
      · intro hjc
        rw [hjc] at hjd
        exact hjd (self_mem_descL ns _ c)
      · rw [if_pos rfl]
        exact hdelta f (by omega)
    · rw [if_neg h0] at hins
      obtain ⟨rfl, rfl⟩ : ns = ns2 ∧ false = placed := by
        simpa [Prod.ext_iff] using hins
      refine ⟨hT, le_refl _, hlen, fun j _ _ => rfl, fun f hf => ?_⟩
      rw [if_neg (by simp)]
      rw [add_zero]
  | succ r ih =>
    intro ns c i ns2 placed hT hc hlen hins
    rw [insertFrom_succ] at hins
    rcases eq_or_ne (getNode ns c (key i)) 0 with h0 | h0
    · rw [if_pos h0] at hins
      obtain ⟨rfl, rfl⟩ : setSlot ns c (key i) (item ||| HIGH) = ns2 ∧ true = placed := by
        simpa [Prod.ext_iff] using hins
      obtain ⟨hT2, hl2, hframe, hdelta⟩ := master_write hT hc (key i) hitem h0
      refine ⟨hT2, by omega, by omega, fun j hj hjd => hframe j ?_, fun f hf => ?_⟩
      · intro hjc
        rw [hjc] at hjd
        exact hjd (self_mem_descL ns _ c)
      · rw [if_pos rfl]
        exact hdelta f (by omega)
    · rw [if_neg h0] at hins
      have hmod : ns.length % 2 ^ 32 = ns.length :=
        Nat.mod_eq_of_lt (lt_of_le_of_lt hlen (by norm_num [HIGH]))
      rcases eq_or_ne (getNode ns c (key i) &&& HIGH) 0 with hmh | hmh
      · -- internal slot: descend
        rw [if_neg (by simpa using hmh)] at hins
        obtain ⟨hwf, hU⟩ := hT
        have hb := WF_spec hwf hc h0 hmh
        obtain ⟨hT2, hl2, hh2, hframe, hdelta⟩ :=
          ih ns (getNode ns c (key i)) (i + 1) ns2 placed ⟨hwf, hU⟩ hb.2 hlen hins
        have hsub : ∀ k, k ∈ descFull ns (getNode ns c (key i)) → k ∈ descFull ns c :=
          fun k hk => descFull_child hwf hc (key i) rfl h0 hmh hk
        have hframe2 : ∀ j, j < ns.length → j ∉ descFull ns c →
            getNode ns2 j = getNode ns j := by
          intro j hj hjd
          exact hframe j hj (fun hk => hjd (hsub j hk))
        refine ⟨hT2, hl2, hh2, hframe2, fun f hf => ?_⟩
        obtain ⟨f, rfl⟩ : ∃ f', f = f' + 1 := ⟨f - 1, by omega⟩
        have hnodec : getNode ns2 c = getNode ns c := by
          apply hframe c hc
          intro hk
          have := (descL_bounds hwf _ _ _ hk).1
          omega
        rw [leavesNode_succ, leavesNode_succ, hnodec]
        have hswap := flatten_map_swap (List.finRange 16)
          ((fun v => if v = 0 then [] else if v &&& HIGH ≠ 0 then [v &&& NOTHIGH]
            else leavesNode ns f v) ∘ getNode ns c)
          ((fun v => if v = 0 then [] else if v &&& HIGH ≠ 0 then [v &&& NOTHIGH]
            else leavesNode ns2 f v) ∘ getNode ns c)
          (key i) (List.nodup_finRange 16) (List.mem_finRange (key i)) ?_
        · have hF : ((fun v => if v = 0 then [] else if v &&& HIGH ≠ 0 then
              [v &&& NOTHIGH] else leavesNode ns f v) ∘ getNode ns c) (key i) =
              leavesNode ns f (getNode ns c (key i)) := by
            simp only [Function.comp_apply]
            rw [if_neg h0, if_neg (by simpa using hmh)]
          have hG : ((fun v => if v = 0 then [] else if v &&& HIGH ≠ 0 then
              [v &&& NOTHIGH] else leavesNode ns2 f v) ∘ getNode ns c) (key i) =
              leavesNode ns2 f (getNode ns c (key i)) := by
            simp only [Function.comp_apply]
            rw [if_neg h0, if_neg (by simpa using hmh)]
          rw [hF, hG] at hswap
          have e2 : slotsList (getNode ns c) = (List.finRange 16).map (getNode ns c) :=
            rfl
          rw [e2, List.map_map, List.map_map]
          have hdel := hdelta f (by omega)
          rw [hdel] at hswap
          rw [add_comm ((leavesNode ns f (getNode ns c (key i)) : Multiset Nat))
            (if placed = true then ({item} : Multiset Nat) else 0), ← add_assoc]
            at hswap
          exact add_right_cancel hswap
        · intro q hq hqp
          simp only [Function.comp_apply]
          rcases eq_or_ne (getNode ns c q) 0 with hu0 | hu0
          · simp [hu0]
          rcases eq_or_ne (getNode ns c q &&& HIGH) 0 with huh | huh
          · have hub := WF_spec hwf hc hu0 huh
            have h2 : ¬ getNode ns c q &&& HIGH ≠ 0 := by simpa using huh
            simp only [if_neg hu0, if_neg h2]
            refine (leavesNode_frame_desc hwf f _ hub.2 ?_).symm
            intro k hk
            have hkb := (descL_bounds hwf _ _ _ hk).1
            have hkl := (descL_bounds hwf _ _ _ hk).2 hub.2
            apply hframe k hkl
            exact desc_disjoint_sib ⟨hwf, hU⟩ hc hqp hu0 huh h0 hmh k hk
          · simp only [if_neg hu0, if_pos huh]
      · -- leaf slot: collision, allocate a node
        rw [if_pos hmh, hmod] at hins
        have hlt : ns.length < HIGH := by
          rcases lt_or_eq_of_le hlen with h | h
          · exact h
          · exfalso
            have hcond : ns.length &&& HIGH ≠ 0 := by
              rw [h, Nat.and_self]
              unfold HIGH
              norm_num
            rw [if_pos hcond] at hins
            exact Option.noConfusion hins
        have hand : ns.length &&& HIGH = 0 := and_high_eq_zero_of_lt hlt
        rw [if_neg (by simpa using hand)] at hins
        obtain ⟨hwf, hU⟩ := hT
        have hT3 := TreeInv_collision ⟨hwf, hU⟩ hc (key i)
          (lookup (getNode ns c (key i) &&& NOTHIGH) (i + 1)) hmh
        have hlen3 := length_collision ns c (key i)
          (Function.update emptyInternal
            (lookup (getNode ns c (key i) &&& NOTHIGH) (i + 1))
            (getNode ns c (key i))) ns.length
        obtain ⟨hT2, hl2, hh2, hframe, hdelta⟩ :=
          ih _ ns.length (i + 1) ns2 placed hT3 (by omega) (by omega) hins
        have hwf3 : WF (setSlot (ns ++ [Function.update emptyInternal
            (lookup (getNode ns c (key i) &&& NOTHIGH) (i + 1))
            (getNode ns c (key i))]) c (key i) ns.length) := hT3.1
        have hframe3 : ∀ j, j < ns.length → getNode ns2 j =
            getNode (setSlot (ns ++ [Function.update emptyInternal
              (lookup (getNode ns c (key i) &&& NOTHIGH) (i + 1))
              (getNode ns c (key i))]) c (key i) ns.length) j := by
          intro j hj
          apply hframe j (by omega)
          intro hk
          have := (descL_bounds hwf3 _ _ _ hk).1
          omega
        have hframeNS : ∀ j, j < ns.length → j ≠ c → getNode ns2 j = getNode ns j := by
          intro j hj hjc
          rw [hframe3 j hj]
          exact getNode_collision_other hjc hj (key i) _ _
        refine ⟨hT2, by omega, by omega, fun j hj hjd => hframeNS j hj ?_, fun f hf => ?_⟩
        · intro hjc
          rw [hjc] at hjd
          exact hjd (self_mem_descL ns _ c)
        · obtain ⟨f, rfl⟩ : ∃ f', f = f' + 1 := ⟨f - 1, by omega⟩
          have hnodec : getNode ns2 c =
              Function.update (getNode ns c) (key i) ns.length := by
            rw [hframe3 c hc]
            exact getNode_collision_self hc (key i) _ _
          rw [leavesNode_succ, leavesNode_succ, hnodec]
          have hswap := flatten_map_swap (List.finRange 16)
            ((fun v => if v = 0 then [] else if v &&& HIGH ≠ 0 then [v &&& NOTHIGH]
              else leavesNode ns f v) ∘ getNode ns c)
            ((fun v => if v = 0 then [] else if v &&& HIGH ≠ 0 then [v &&& NOTHIGH]
              else leavesNode ns2 f v) ∘
              Function.update (getNode ns c) (key i) ns.length)
            (key i) (List.nodup_finRange 16) (List.mem_finRange (key i)) ?_
          · have hF : ((fun v => if v = 0 then [] else if v &&& HIGH ≠ 0 then
                [v &&& NOTHIGH] else leavesNode ns f v) ∘ getNode ns c) (key i) =
                [getNode ns c (key i) &&& NOTHIGH] := by
              simp only [Function.comp_apply]
              rw [if_neg h0, if_pos hmh]
            have hG : ((fun v => if v = 0 then [] else if v &&& HIGH ≠ 0 then
                [v &&& NOTHIGH] else leavesNode ns2 f v) ∘
                Function.update (getNode ns c) (key i) ns.length) (key i) =
                leavesNode ns2 f ns.length := by
              simp only [Function.comp_apply, Function.update_same]
              rw [if_neg (by omega), if_neg (by simpa using hand)]
            rw [hF, hG] at hswap
            have hnew : getNode (setSlot (ns ++ [Function.update emptyInternal
                (lookup (getNode ns c (key i) &&& NOTHIGH) (i + 1))
                (getNode ns c (key i))]) c (key i) ns.length) ns.length =
                Function.update emptyInternal
                  (lookup (getNode ns c (key i) &&& NOTHIGH) (i + 1))
                  (getNode ns c (key i)) := getNode_collision_new hc (key i) _ _
            have hmid := leavesNode_single_leaf hnew hmh f (by omega)
            have hdel := hdelta f (by omega)
            rw [hmid] at hdel
            have e2 : slotsList (getNode ns c) =
                (List.finRange 16).map (getNode ns c) := rfl
            have e1 : slotsList (Function.update (getNode ns c) (key i) ns.length) =
                (List.finRange 16).map
                  (Function.update (getNode ns c) (key i) ns.length) := rfl
            rw [e1, e2, List.map_map, List.map_map]
            rw [hdel, Multiset.coe_singleton] at hswap
            rw [add_comm (({getNode ns c (key i) &&& NOTHIGH} : Multiset Nat))
              (if placed = true then ({item} : Multiset Nat) else 0), ← add_assoc]
              at hswap
            exact add_right_cancel hswap
          · intro q hq hqp
            simp only [Function.comp_apply, Function.update_noteq hqp]
            rcases eq_or_ne (getNode ns c q) 0 with hu0 | hu0
            · simp [hu0]
            rcases eq_or_ne (getNode ns c q &&& HIGH) 0 with huh | huh
            · have hub := WF_spec hwf hc hu0 huh
              have h2 : ¬ getNode ns c q &&& HIGH ≠ 0 := by simpa using huh
              simp only [if_neg hu0, if_neg h2]
              refine (leavesNode_frame_desc hwf f _ hub.2 ?_).symm
              intro k hk
              have hkb := (descL_bounds hwf _ _ _ hk).1
              have hkl := (descL_bounds hwf _ _ _ hk).2 hub.2
              exact hframeNS k hkl (by omega)
            · simp only [if_neg hu0, if_pos huh]

lemma insert_roundtrip {item : Nat} {key : Nat → Fin 16} {lookup : Nat → Nat → Fin 16}
    (hitem : item < HIGH) :
    ∀ (r : Nat) (ns : List Internal) (c i : Nat) (ns2 : List Internal),
      TreeInv ns → c < ns.length → ns.length ≤ HIGH →
      insertFrom item key lookup r ns c i = some (ns2, true) →
      getFrom key (r + 1) ns2 c i = some item := by
  intro r
  induction r with
  | zero =>
    intro ns c i ns2 hT hc hlen hins
    rw [insertFrom_zero] at hins
    rcases eq_or_ne (getNode ns c (key i)) 0 with h0 | h0
    · rw [if_pos h0] at hins
      obtain ⟨rfl, _⟩ : setSlot ns c (key i) (item ||| HIGH) = ns2 ∧ True := by
        simpa [Prod.ext_iff] using hins
      rw [getFrom_succ, getNode_setSlot_self hc, Function.update_same,
        if_neg (lor_high_ne_zero item), if_pos (lor_high_and_high item),
        lor_high_and_nothigh hitem]
    · rw [if_neg h0] at hins
      simp [Prod.ext_iff] at hins
  | succ r ih =>
    intro ns c i ns2 hT hc hlen hins
    rw [insertFrom_succ] at hins
    rcases eq_or_ne (getNode ns c (key i)) 0 with h0 | h0
    · rw [if_pos h0] at hins
      obtain ⟨rfl, _⟩ : setSlot ns c (key i) (item ||| HIGH) = ns2 ∧ True := by
        simpa [Prod.ext_iff] using hins
      rw [getFrom_succ, getNode_setSlot_self hc, Function.update_same,
        if_neg (lor_high_ne_zero item), if_pos (lor_high_and_high item),
        lor_high_and_nothigh hitem]
    · rw [if_neg h0] at hins
      have hmod : ns.length % 2 ^ 32 = ns.length :=
        Nat.mod_eq_of_lt (lt_of_le_of_lt hlen (by norm_num [HIGH]))
      rcases eq_or_ne (getNode ns c (key i) &&& HIGH) 0 with hmh | hmh
      · rw [if_neg (by simpa using hmh)] at hins
        have hb := WF_spec hT.1 hc h0 hmh
        obtain ⟨_, _, _, hframe, _⟩ :=
          insert_master hitem r ns (getNode ns c (key i)) (i + 1) ns2 true
            hT hb.2 hlen hins
        have hnodec : getNode ns2 c = getNode ns c := by
          apply hframe c hc
          intro hk
          have := (descL_bounds hT.1 _ _ _ hk).1
          omega
        rw [getFrom_succ, hnodec, if_neg h0, if_neg (by simpa using hmh)]
        exact ih ns (getNode ns c (key i)) (i + 1) ns2 hT hb.2 hlen hins
      · rw [if_pos hmh, hmod] at hins
        have hlt : ns.length < HIGH := by
          rcases lt_or_eq_of_le hlen with h | h
          · exact h
          · exfalso
            have hcond : ns.length &&& HIGH ≠ 0 := by
              rw [h, Nat.and_self]
              unfold HIGH
              norm_num
            rw [if_pos hcond] at hins
            exact Option.noConfusion hins
        have hand : ns.length &&& HIGH = 0 := and_high_eq_zero_of_lt hlt
        rw [if_neg (by simpa using hand)] at hins
        have hT3 := TreeInv_collision hT hc (key i)
          (lookup (getNode ns c (key i) &&& NOTHIGH) (i + 1)) hmh
        have hlen3 := length_collision ns c (key i)
          (Function.update emptyInternal
            (lookup (getNode ns c (key i) &&& NOTHIGH) (i + 1))
            (getNode ns c (key i))) ns.length
        obtain ⟨_, _, _, hframe, _⟩ :=
          insert_master hitem r _ ns.length (i + 1) ns2 true
            hT3 (by omega) (by omega) hins
        have hnodec : getNode ns2 c =
            Function.update (getNode ns c) (key i) ns.length := by
          rw [← getNode_collision_self hc (key i)
            (Function.update emptyInternal
              (lookup (getNode ns c (key i) &&& NOTHIGH) (i + 1))
              (getNode ns c (key i))) ns.length]
          apply hframe c (by omega)
          intro hk
          have := (descL_bounds hT3.1 _ _ _ hk).1
          omega
        rw [getFrom_succ, hnodec, Function.update_same, if_neg (by omega),
          if_neg (by simpa using hand)]
        exact ih _ ns.length (i + 1) ns2 hT3 (by omega) (by omega) hins

lemma getFrom_mono {ns : List Internal} {K : Nat → Fin 16} :
    ∀ (f g j i : Nat) {v : Nat}, f ≤ g → getFrom K f ns j i = some v →
      getFrom K g ns j i = some v := by
  intro f
  induction f with
  | zero =>
    intro g j i v _ h
    exact absurd h (by simp [getFrom])
  | succ f ih =>
    intro g j i v hfg h
    obtain ⟨g, rfl⟩ : ∃ g', g = g' + 1 := ⟨g - 1, by omega⟩
    rw [getFrom_succ] at h ⊢
    rcases eq_or_ne (getNode ns j (K i)) 0 with h0 | h0
    · rw [if_pos h0] at h
      exact absurd h (by simp)
    rw [if_neg h0] at h ⊢
    rcases eq_or_ne (getNode ns j (K i) &&& HIGH) 0 with hh | hh
    · rw [if_neg (by simpa using hh)] at h ⊢
      exact ih g _ (i + 1) (by omega) h
    · rw [if_pos hh] at h ⊢
      exact h

lemma insert_persist {item : Nat} {key : Nat → Fin 16} {lookup : Nat → Nat → Fin 16}
    (hitem : item < HIGH) :
    ∀ (r : Nat) (ns : List Internal) (c i : Nat) (ns2 : List Internal)
      (placed : Bool) (K : Nat → Fin 16) (f v : Nat),
      TreeInv ns → c < ns.length → ns.length ≤ HIGH →
      insertFrom item key lookup r ns c i = some (ns2, placed) →
      getFrom K f ns c i = some v → f ≤ r + 1 →
      ∃ K', getFrom K' (r + 1) ns2 c i = some v := by
  intro r
  induction r with
  | zero =>
    intro ns c i ns2 placed K f v hT hc hlen hins hget hf
    obtain ⟨f, rfl⟩ : ∃ f', f = f' + 1 := by
      cases f with
      | zero => exact absurd hget (by simp [getFrom])
      | succ f => exact ⟨f, rfl⟩
    rw [getFrom_succ] at hget
    rcases eq_or_ne (getNode ns c (K i)) 0 with h0 | h0
    · rw [if_pos h0] at hget
      exact absurd hget (by simp)
    rw [if_neg h0] at hget
    rcases eq_or_ne (getNode ns c (K i) &&& HIGH) 0 with hh | hh
    · rw [if_neg (by simpa using hh)] at hget
      have : f = 0 := by omega
      rw [this] at hget
      exact absurd hget (by simp [getFrom])
    · rw [if_pos hh] at hget
      rw [insertFrom_zero] at hins
      rcases eq_or_ne (getNode ns c (key i)) 0 with hw0 | hw0
      · rw [if_pos hw0] at hins
        obtain ⟨rfl, rfl⟩ : setSlot ns c (key i) (item ||| HIGH) = ns2 ∧
            placed = true := by
          simpa [Prod.ext_iff] using hins
        have hne : K i ≠ key i := by
          intro he
          rw [he, hw0] at h0
          exact h0 rfl
        refine ⟨K, ?_⟩
        rw [getFrom_succ, getNode_setSlot_self hc, Function.update_noteq hne,
          if_neg h0, if_pos hh]
        exact hget
      · rw [if_neg hw0] at hins
        obtain ⟨rfl, rfl⟩ : ns = ns2 ∧ placed = false := by
          simpa [Prod.ext_iff] using hins
        refine ⟨K, ?_⟩
        rw [getFrom_succ, if_neg h0, if_pos hh]
        exact hget
  | succ r ih =>
    intro ns c i ns2 placed K f v hT hc hlen hins hget hf
    obtain ⟨f, rfl⟩ : ∃ f', f = f' + 1 := by
      cases f with
      | zero => exact absurd hget (by simp [getFrom])
      | succ f => exact ⟨f, rfl⟩
    rw [getFrom_succ] at hget
    rcases eq_or_ne (getNode ns c (K i)) 0 with h0 | h0
    · rw [if_pos h0] at hget
      exact absurd hget (by simp)
    rw [if_neg h0] at hget
    rw [insertFrom_succ] at hins
    rcases eq_or_ne (getNode ns c (key i)) 0 with hw0 | hw0
    · -- insert writes into an empty slot of this node
      rw [if_pos hw0] at hins
      obtain ⟨rfl, rfl⟩ : setSlot ns c (key i) (item ||| HIGH) = ns2 ∧
          placed = true := by
        simpa [Prod.ext_iff] using hins
      have hne : K i ≠ key i := by
        intro he
        rw [he, hw0] at h0
        exact h0 rfl
      refine ⟨K, ?_⟩
      rw [getFrom_succ, getNode_setSlot_self hc, Function.update_noteq hne,
        if_neg h0]
      rcases eq_or_ne (getNode ns c (K i) &&& HIGH) 0 with hh | hh
      · rw [if_neg (by simpa using hh)]
        rw [if_neg (by simpa using hh)] at hget
        have hb := WF_spec hT.1 hc h0 hh
        have hfr : getFrom K (r + 1) (setSlot ns c (key i) (item ||| HIGH))
            (getNode ns c (K i)) (i + 1) =
            getFrom K (r + 1) ns (getNode ns c (K i)) (i + 1) := by
          apply getFrom_frame_desc hT.1 K _ _ (i + 1) hb.2
          intro k hk
          have := (descL_bounds hT.1 _ _ _ hk).1
          exact getNode_setSlot_ne (by omega) _ _
        rw [hfr]
        exact getFrom_mono f (r + 1) _ (i + 1) (by omega) hget
      · rw [if_pos hh]
        rw [if_pos hh] at hget
        exact hget
    · rw [if_neg hw0] at hins
      have hmod : ns.length % 2 ^ 32 = ns.length :=
        Nat.mod_eq_of_lt (lt_of_le_of_lt hlen (by norm_num [HIGH]))
      rcases eq_or_ne (getNode ns c (key i) &&& HIGH) 0 with hwh | hwh
      · -- insert descends into an internal slot
        rw [if_neg (by simpa using hwh)] at hins
        have hwb := WF_spec hT.1 hc hw0 hwh
        obtain ⟨_, _, _, hframe, _⟩ :=
          insert_master hitem r ns (getNode ns c (key i)) (i + 1) ns2 placed
            hT hwb.2 hlen hins
        have hnodec : getNode ns2 c = getNode ns c := by
          apply hframe c hc
          intro hk
          have := (descL_bounds hT.1 _ _ _ hk).1
          omega
        rcases eq_or_ne (K i) (key i) with hKi | hKi
        · -- same branch as the insertion
          rcases eq_or_ne (getNode ns c (K i) &&& HIGH) 0 with hh | hh
          · rw [if_neg (by simpa using hh)] at hget
            rw [hKi] at hget
            obtain ⟨K'', hK''⟩ := ih ns (getNode ns c (key i)) (i + 1) ns2 placed
              K f v hT hwb.2 hlen hins hget (by omega)
            refine ⟨fun n => if n = i then key i else K'' n, ?_⟩
            rw [getFrom_succ]
            rw [show (if i = i then key i else K'' i) = key i from if_pos rfl]
            rw [hnodec, if_neg hw0, if_neg (by simpa using hwh)]
            rw [getFrom_key_agree (r + 1) _ (i + 1)
              (fun m hm => by rw [if_neg (by omega)])]
            exact hK''
          · rw [hKi] at hh
            exact absurd hwh (by simpa using hh)
        · -- a sibling slot of the insertion branch
          rcases eq_or_ne (getNode ns c (K i) &&& HIGH) 0 with hh | hh
          · rw [if_neg (by simpa using hh)] at hget
            have hub := WF_spec hT.1 hc h0 hh
            refine ⟨K, ?_⟩
            rw [getFrom_succ, hnodec, if_neg h0, if_neg (by simpa using hh)]
            have hfr : getFrom K (r + 1) ns2 (getNode ns c (K i)) (i + 1) =
                getFrom K (r + 1) ns (getNode ns c (K i)) (i + 1) := by
              apply getFrom_frame_desc hT.1 K _ _ (i + 1) hub.2
              intro k hk
              have hkl := (descL_bounds hT.1 _ _ _ hk).2 hub.2
              apply hframe k hkl
              exact desc_disjoint_sib hT hc hKi h0 hh hw0 hwh k hk
            rw [hfr]
            exact getFrom_mono f (r + 1) _ (i + 1) (by omega) hget
          · rw [if_pos hh] at hget
            refine ⟨K, ?_⟩
            rw [getFrom_succ, hnodec, if_neg h0, if_pos hh]
            exact hget
      · -- insert collides with a leaf here
        rw [if_pos hwh, hmod] at hins
        have hlt : ns.length < HIGH := by
          rcases lt_or_eq_of_le hlen with h | h
          · exact h
          · exfalso
            have hcond : ns.length &&& HIGH ≠ 0 := by
              rw [h, Nat.and_self]
              unfold HIGH
              norm_num
            rw [if_pos hcond] at hins
            exact Option.noConfusion hins
        have hand : ns.length &&& HIGH = 0 := and_high_eq_zero_of_lt hlt
        rw [if_neg (by simpa using hand)] at hins
        have hT3 := TreeInv_collision hT hc (key i)
          (lookup (getNode ns c (key i) &&& NOTHIGH) (i + 1)) hwh
        have hlen3 := length_collision ns c (key i)
          (Function.update emptyInternal
            (lookup (getNode ns c (key i) &&& NOTHIGH) (i + 1))
            (getNode ns c (key i))) ns.length
        obtain ⟨_, _, _, hframe, _⟩ :=
          insert_master hitem r _ ns.length (i + 1) ns2 placed
            hT3 (by omega) (by omega) hins
        have hframeLow : ∀ j, j < ns.length → getNode ns2 j =
            getNode (setSlot (ns ++ [Function.update emptyInternal
              (lookup (getNode ns c (key i) &&& NOTHIGH) (i + 1))
              (getNode ns c (key i))]) c (key i) ns.length) j := by
          intro j hj
          apply hframe j (by omega)
          intro hk
          have := (descL_bounds hT3.1 _ _ _ hk).1
          omega
        have hnodec : getNode ns2 c =
            Function.update (getNode ns c) (key i) ns.length := by
          rw [hframeLow c hc]
          exact getNode_collision_self hc (key i) _ _
        rcases eq_or_ne (K i) (key i) with hKi | hKi
        · -- the old leaf here is the displaced one
          rcases eq_or_ne (getNode ns c (K i) &&& HIGH) 0 with hh | hh
          · rw [hKi] at hh
            exact absurd hh (by simpa using hwh)
          · rw [if_pos hh] at hget
            rw [hKi] at hget
            have hstart : getFrom (fun _ =>
                lookup (getNode ns c (key i) &&& NOTHIGH) (i + 1)) 1
                (setSlot (ns ++ [Function.update emptyInternal
                  (lookup (getNode ns c (key i) &&& NOTHIGH) (i + 1))
                  (getNode ns c (key i))]) c (key i) ns.length)
                ns.length (i + 1) = some (getNode ns c (key i) &&& NOTHIGH) := by
              rw [getFrom_succ, getNode_collision_new hc (key i) _ _,
                Function.update_same, if_neg hw0, if_pos hwh]
            obtain ⟨K'', hK''⟩ := ih _ ns.length (i + 1) ns2 placed _ 1 _
              hT3 (by omega) (by omega) hins hstart (by omega)
            refine ⟨fun n => if n = i then key i else K'' n, ?_⟩
            rw [getFrom_succ]
            rw [show (if i = i then key i else K'' i) = key i from if_pos rfl]
            rw [hnodec, Function.update_same, if_neg (by omega),
              if_neg (by simpa using hand)]
            rw [getFrom_key_agree (r + 1) _ (i + 1)
              (fun m hm => by rw [if_neg (by omega)])]
            rw [hK'']
            exact hget
        · -- `K` reads a sibling slot, untouched by the whole insertion
          have huns : getNode ns2 c (K i) = getNode ns c (K i) := by
            rw [hnodec, Function.update_noteq hKi]
          rcases eq_or_ne (getNode ns c (K i) &&& HIGH) 0 with hh | hh
          · rw [if_neg (by simpa using hh)] at hget
            have hub := WF_spec hT.1 hc h0 hh
            refine ⟨K, ?_⟩
            rw [getFrom_succ, huns, if_neg h0, if_neg (by simpa using hh)]
            have hfr : getFrom K (r + 1) ns2 (getNode ns c (K i)) (i + 1) =
                getFrom K (r + 1) ns (getNode ns c (K i)) (i + 1) := by
              apply getFrom_frame_desc hT.1 K _ _ (i + 1) hub.2
              intro k hk
              have hkb := (descL_bounds hT.1 _ _ _ hk).1
              have hkl := (descL_bounds hT.1 _ _ _ hk).2 hub.2
              rw [hframeLow k hkl]
              exact getNode_collision_other (by omega) hkl (key i) _ _
            rw [hfr]
            exact getFrom_mono f (r + 1) _ (i + 1) (by omega) hget
          · rw [if_pos hh] at hget
            refine ⟨K, ?_⟩
            rw [getFrom_succ, huns, if_neg h0, if_pos hh]
            exact hget

lemma mem_leavesNode_mono {ns : List Internal} :
    ∀ (f g j v : Nat), f ≤ g → v ∈ leavesNode ns f j → v ∈ leavesNode ns g j := by
  intro f
  induction f with
  | zero =>
    intro g j v _ hv
    exact absurd hv (by simp [leavesNode])
  | succ f ih =>
    intro g j v hfg hv
    obtain ⟨g, rfl⟩ : ∃ g', g = g' + 1 := ⟨g - 1, by omega⟩
    rw [leavesNode_succ] at hv ⊢
    rcases List.mem_flatten.mp hv with ⟨l, hl, hvl⟩
    rcases List.mem_map.mp hl with ⟨w, hw, rfl⟩
    apply List.mem_flatten.mpr
    refine ⟨_, List.mem_map_of_mem _ hw, ?_⟩
    rcases eq_or_ne w 0 with rfl | hw0
    · simp at hvl
    rcases eq_or_ne (w &&& HIGH) 0 with hwh | hwh
    · rw [if_neg hw0, if_neg (by simpa using hwh)] at hvl ⊢
      exact ih g _ v (by omega) hvl
    · rw [if_neg hw0, if_pos hwh] at hvl ⊢
      exact hvl

lemma insert_unchecked_unwrap {t : BinTrie} {x : Nat} {key : Nat → Fin 16}
    {lookup : Nat → Nat → Fin 16} {t' : BinTrie} {placed : Bool}
    (h : t.insert_unchecked x key lookup = some (t', placed)) :
    ∃ ns2, insertFrom x key lookup (t.depth - 1) t.internals 0 0 =
      some (ns2, placed) ∧ t' = ⟨ns2, t.depth⟩ := by
  unfold BinTrie.insert_unchecked at h
  rcases ho : insertFrom x key lookup (t.depth - 1) t.internals 0 0 with _ | p
  · rw [ho] at h
    exact absurd h (by simp)
  · obtain ⟨ns2, pl⟩ := p
    rw [ho] at h
    simp only [Option.map_some', Option.some_inj, Prod.ext_iff] at h
    obtain ⟨h1, h2⟩ := h
    subst h2
    refine ⟨ns2, ?_, ?_⟩
    · rfl
    · exact h1.symm

lemma reached_inv {t : BinTrie} {m : Multiset Nat} (h : Reached t m) :
    TreeInv t.internals ∧ 0 < t.internals.length ∧ t.internals.length ≤ HIGH ∧
    0 < t.depth ∧
    ((leavesNode t.internals (t.internals.length + 1) 0 : Multiset Nat) = m) ∧
    (∀ v, v ∈ m → ∃ K, t.get_unchecked K = some v) := by
  induction h with
  | new d hd =>
    refine ⟨?_, ?_, ?_, hd, ?_, ?_⟩
    · show TreeInv [emptyInternal]
      decide
    · show 0 < [emptyInternal].length
      decide
    · show [emptyInternal].length ≤ HIGH
      decide
    · show ((leavesNode [emptyInternal] 2 0 : List Nat) : Multiset Nat) = 0
      rfl
    · intro v hv
      exact absurd hv (by simp)
  | ins t m x key lookup t' placed hx h hi ih =>
    obtain ⟨hT, hpos, hlen, hdep, hleaves, hget⟩ := ih
    obtain ⟨ns2, hins, rfl⟩ := insert_unchecked_unwrap hi
    obtain ⟨hT2, hl2, hh2, hframe, hdelta⟩ :=
      insert_master hx (t.depth - 1) t.internals 0 0 ns2 placed hT hpos hlen hins
    refine ⟨hT2, by simpa using lt_of_lt_of_le hpos hl2, hh2, hdep, ?_, ?_⟩
    · have hF : (leavesNode ns2 (ns2.length + 1) 0 : Multiset Nat) =
          (leavesNode ns2 (ns2.length + (t.depth - 1) + 1) 0 : Multiset Nat) := by
        rw [leavesNode_stable hT2.1 ns2.length 0 (ns2.length + 1)
          (ns2.length + (t.depth - 1) + 1) (by omega) (by omega) (by omega)]
      have hdel := hdelta (ns2.length + (t.depth - 1) + 1) (by omega)
      have hG : (leavesNode t.internals (ns2.length + (t.depth - 1) + 1) 0 :
          Multiset Nat) = (leavesNode t.internals (t.internals.length + 1) 0 :
          Multiset Nat) := by
        rw [leavesNode_stable hT.1 t.internals.length 0
          (ns2.length + (t.depth - 1) + 1) (t.internals.length + 1)
          (by omega) (by omega) (by omega)]
      show (leavesNode ns2 (ns2.length + 1) 0 : Multiset Nat) = _
      rw [hF, hdel, hG, hleaves]
      cases placed
      · simp
      · rw [if_pos rfl, if_pos rfl, add_comm, Multiset.singleton_add]
    · have hper : ∀ v, v ∈ m → ∃ K', getFrom K' t.depth ns2 0 0 = some v := by
        intro v hv'
        obtain ⟨K, hK⟩ := hget v hv'
        obtain ⟨K', hK'⟩ := insert_persist hx (t.depth - 1) t.internals 0 0 ns2
          placed K t.depth v hT hpos hlen hins hK (by omega)
        have he : t.depth - 1 + 1 = t.depth := by omega
        rw [he] at hK'
        exact ⟨K', hK'⟩
      intro v hv
      by_cases hp : placed = true
      · subst hp
        rw [if_pos rfl] at hv
        rcases Multiset.mem_cons.mp hv with rfl | hv'
        · refine ⟨key, ?_⟩
          show getFrom key t.depth ns2 0 0 = some v
          have hrt := insert_roundtrip hx (t.depth - 1) t.internals 0 0 ns2
            hT hpos hlen hins
          have he : t.depth - 1 + 1 = t.depth := by omega
          rw [he] at hrt
          exact hrt
        · obtain ⟨K', hK'⟩ := hper v hv'
          refine ⟨K', ?_⟩
          show getFrom K' t.depth ns2 0 0 = some v
          exact hK'
      · rw [if_neg hp] at hv
        obtain ⟨K', hK'⟩ := hper v hv
        refine ⟨K', ?_⟩
        show getFrom K' t.depth ns2 0 0 = some v
        exact hK'

lemma finRange_drop_succ {k : Nat} (hk : k < 16) :
    (List.finRange 16).drop k =
      (⟨k, hk⟩ : Fin 16) :: (List.finRange 16).drop (k + 1) := by
  rw [List.drop_eq_getElem_cons (by simpa using hk)]
  congr 1
  simp

lemma finRange_drop_nil {k : Nat} (hk : 16 ≤ k) :
    (List.finRange 16).drop k = [] := by
  apply List.drop_eq_nil_of_le
  simpa using hk

/-- Coupling between an `explore` stack driven by the full-range heuristic
and the corresponding `items()` stack. -/
inductive ExpRel {σ : Type} : List (Internal × σ × List (Fin 16)) →
    List (List Nat) → Prop
  | nil : ExpRel [] []
  | cons (arr : Internal) (h : σ) (k : Nat)
      (es : List (Internal × σ × List (Fin 16))) (is : List (List Nat))
      (hrest : ExpRel es is) :
      ExpRel ((arr, h, (List.finRange 16).drop k) :: es)
        ((((List.finRange 16).drop k).map arr) :: is)

lemma explore_full_bisim {σ : Type} (ns : List Internal) (enter : Fin 16 → σ → σ) :
    ∀ (f : Nat) (es : List (Internal × σ × List (Fin 16))) (is : List (List Nat)),
      ExpRel es is →
      exploreCollect ns (fullHeuristic enter) f es = collect ns f is := by
  intro f
  induction f with
  | zero =>
    intro es is hrel
    cases hrel with
    | nil => rfl
    | cons arr h k es is hrest => rfl
  | succ f ih =>
    intro es is hrel
    cases hrel with
    | nil => rfl
    | cons arr h k es is hrest =>
      rcases lt_or_ge k 16 with hk | hk
      · rw [finRange_drop_succ hk]
        show (if arr ⟨k, hk⟩ = 0 then
            exploreCollect ns (fullHeuristic enter) f
              ((arr, h, (List.finRange 16).drop (k + 1)) :: es)
          else if arr ⟨k, hk⟩ &&& HIGH ≠ 0 then
            (exploreCollect ns (fullHeuristic enter) f
              ((arr, h, (List.finRange 16).drop (k + 1)) :: es)).map
              fun l => (arr ⟨k, hk⟩ &&& NOTHIGH) :: l
          else
            exploreCollect ns (fullHeuristic enter) f
              ((getNode ns (arr ⟨k, hk⟩), enter ⟨k, hk⟩ h,
                List.finRange 16) :: (arr, h, (List.finRange 16).drop (k + 1)) :: es))
          = _
        rw [List.map_cons]
        show _ = (if arr ⟨k, hk⟩ = 0 then
            collect ns f ((((List.finRange 16).drop (k + 1)).map arr) :: is)
          else if arr ⟨k, hk⟩ &&& HIGH ≠ 0 then
            (collect ns f ((((List.finRange 16).drop (k + 1)).map arr) :: is)).map
              fun l => (arr ⟨k, hk⟩ &&& NOTHIGH) :: l
          else
            collect ns f (slotsList (getNode ns (arr ⟨k, hk⟩)) ::
              (((List.finRange 16).drop (k + 1)).map arr) :: is))
        have hrel1 : ExpRel ((arr, h, (List.finRange 16).drop (k + 1)) :: es)
            ((((List.finRange 16).drop (k + 1)).map arr) :: is) :=
          ExpRel.cons arr h (k + 1) es is hrest
        rcases eq_or_ne (arr ⟨k, hk⟩) 0 with h0 | h0
        · rw [if_pos h0, if_pos h0]
          exact ih _ _ hrel1
        · rw [if_neg h0, if_neg h0]
          rcases eq_or_ne (arr ⟨k, hk⟩ &&& HIGH) 0 with hh | hh
          · rw [if_neg (by simpa using hh), if_neg (by simpa using hh)]
            have hrel2 : ExpRel ((getNode ns (arr ⟨k, hk⟩), enter ⟨k, hk⟩ h,
                List.finRange 16) :: (arr, h, (List.finRange 16).drop (k + 1)) :: es)
                (slotsList (getNode ns (arr ⟨k, hk⟩)) ::
                  (((List.finRange 16).drop (k + 1)).map arr) :: is) := by
              have e0 : (List.finRange 16 : List (Fin 16)) =
                  (List.finRange 16).drop 0 := rfl
              have e1 : slotsList (getNode ns (arr ⟨k, hk⟩)) =
                  ((List.finRange 16).drop 0).map (getNode ns (arr ⟨k, hk⟩)) := rfl
              rw [e0, e1]
              exact ExpRel.cons _ _ 0 _ _ hrel1
            exact ih _ _ hrel2
          · rw [if_pos hh, if_pos hh]
            rw [ih _ _ hrel1]
      · rw [finRange_drop_nil hk]
        show exploreCollect ns (fullHeuristic enter) f es = collect ns (f + 1) ([] :: is)
        show exploreCollect ns (fullHeuristic enter) f es = collect ns f is
        exact ih _ _ hrest

lemma traceFrom_succ (ns : List Internal) (K : Nat → Fin 16) (j i k : Nat) :
    traceFrom ns K j i (k + 1) =
      match traceFrom ns K j i k with
      | none => none
      | some c =>
        if getNode ns c (K (i + k)) ≠ 0 ∧ getNode ns c (K (i + k)) &&& HIGH = 0
        then some (getNode ns c (K (i + k))) else none := by
  rw [traceFrom]

lemma traceFrom_front {ns : List Internal} {K : Nat → Fin 16} :
    ∀ (k j i : Nat),
      traceFrom ns K j i (k + 1) =
        if getNode ns j (K i) ≠ 0 ∧ getNode ns j (K i) &&& HIGH = 0 then
          traceFrom ns K (getNode ns j (K i)) (i + 1) k
        else none := by
  intro k
  induction k with
  | zero =>
    intro j i
    rw [traceFrom_succ]
    show (match (some j : Option Nat) with
      | none => none
      | some c =>
        if getNode ns c (K (i + 0)) ≠ 0 ∧ getNode ns c (K (i + 0)) &&& HIGH = 0
        then some (getNode ns c (K (i + 0))) else none) = _
    have he : i + 0 = i := rfl
    by_cases hcond : getNode ns j (K i) ≠ 0 ∧ getNode ns j (K i) &&& HIGH = 0
    · rw [if_pos hcond]
      show (if getNode ns j (K (i + 0)) ≠ 0 ∧ getNode ns j (K (i + 0)) &&& HIGH = 0
        then some (getNode ns j (K (i + 0))) else none) = _
      rw [he, if_pos hcond]
      rfl
    · rw [if_neg hcond]
      show (if getNode ns j (K (i + 0)) ≠ 0 ∧ getNode ns j (K (i + 0)) &&& HIGH = 0
        then some (getNode ns j (K (i + 0))) else none) = _
      rw [he, if_neg hcond]
  | succ k ih =>
    intro j i
    rw [traceFrom_succ, ih j i]
    by_cases hcond : getNode ns j (K i) ≠ 0 ∧ getNode ns j (K i) &&& HIGH = 0
    · rw [if_pos hcond, if_pos hcond, traceFrom_succ]
      have he : i + (k + 1) = (i + 1) + k := by omega
      rw [he]
    · rw [if_neg hcond, if_neg hcond]

lemma getFrom_some_iff {ns : List Internal} {K : Nat → Fin 16} :
    ∀ (f j i v : Nat),
      getFrom K f ns j i = some v ↔
        ∃ k, k < f ∧ ∃ c, traceFrom ns K j i k = some c ∧
          getNode ns c (K (i + k)) &&& HIGH ≠ 0 ∧
          getNode ns c (K (i + k)) &&& NOTHIGH = v := by
  intro f
  induction f with
  | zero =>
    intro j i v
    constructor
    · intro h
      exact absurd h (by simp [getFrom])
    · rintro ⟨k, hk, _⟩
      omega
  | succ f ih =>
    intro j i v
    rw [getFrom_succ]
    rcases eq_or_ne (getNode ns j (K i)) 0 with h0 | h0
    · rw [if_pos h0]
      constructor
      · intro h
        exact absurd h (by simp)
      · rintro ⟨k, hk, c, hc, hleaf, hval⟩
        exfalso
        cases k with
        | zero =>
          rw [show traceFrom ns K j i 0 = some j from rfl] at hc
          obtain rfl : j = c := by simpa using hc
          rw [show i + 0 = i from rfl, h0] at hleaf
          simp at hleaf
        | succ k =>
          rw [traceFrom_front, if_neg (fun hcon => hcon.1 h0)] at hc
          exact Option.noConfusion hc
    · rw [if_neg h0]
      rcases eq_or_ne (getNode ns j (K i) &&& HIGH) 0 with hh | hh
      · -- internal: shift by one
        rw [if_neg (by simpa using hh), ih]
        constructor
        · rintro ⟨k, hk, c, hc, hleaf, hval⟩
          refine ⟨k + 1, by omega, c, ?_, ?_, ?_⟩
          · rw [traceFrom_front, if_pos ⟨h0, hh⟩]
            exact hc
          · rw [show i + (k + 1) = (i + 1) + k from by omega]
            exact hleaf
          · rw [show i + (k + 1) = (i + 1) + k from by omega]
            exact hval
        · rintro ⟨k, hk, c, hc, hleaf, hval⟩
          cases k with
          | zero =>
            rw [show traceFrom ns K j i 0 = some j from rfl] at hc
            obtain rfl : j = c := by simpa using hc
            rw [show i + 0 = i from rfl] at hleaf
            exact absurd hh (by simpa using hleaf)
          | succ k =>
            rw [traceFrom_front, if_pos ⟨h0, hh⟩] at hc
            refine ⟨k, by omega, c, hc, ?_, ?_⟩
            · rw [show (i + 1) + k = i + (k + 1) from by omega]
              exact hleaf
            · rw [show (i + 1) + k = i + (k + 1) from by omega]
              exact hval
      · -- leaf here
        rw [if_pos hh]
        constructor
        · intro h
          refine ⟨0, by omega, j, rfl, ?_, ?_⟩
          · rw [show i + 0 = i from rfl]
            exact hh
          · rw [show i + 0 = i from rfl]
            simpa using h
        · rintro ⟨k, hk, c, hc, hleaf, hval⟩
          cases k with
          | zero =>
            rw [show traceFrom ns K j i 0 = some j from rfl] at hc
            obtain rfl : j = c := by simpa using hc
            rw [show i + 0 = i from rfl] at hval
            rw [hval]
          | succ k =>
            rw [traceFrom_front,
              if_neg (fun hcon => (by simpa using hh : ¬ _) hcon.2)] at hc
            exact Option.noConfusion hc

lemma getFrom_none_iff {ns : List Internal} {K : Nat → Fin 16} :
    ∀ (f j i : Nat),
      getFrom K f ns j i = none ↔
        (∃ k, k < f ∧ ∃ c, traceFrom ns K j i k = some c ∧
          getNode ns c (K (i + k)) = 0) ∨
        (∃ c, traceFrom ns K j i f = some c) := by
  intro f
  induction f with
  | zero =>
    intro j i
    constructor
    · intro _
      exact Or.inr ⟨j, rfl⟩
    · intro _
      rfl
  | succ f ih =>
    intro j i
    rw [getFrom_succ]
    rcases eq_or_ne (getNode ns j (K i)) 0 with h0 | h0
    · rw [if_pos h0]
      constructor
      · intro _
        refine Or.inl ⟨0, by omega, j, rfl, ?_⟩
        rw [show i + 0 = i from rfl]
        exact h0
      · intro _
        rfl
    · rw [if_neg h0]
      rcases eq_or_ne (getNode ns j (K i) &&& HIGH) 0 with hh | hh
      · rw [if_neg (by simpa using hh), ih]
        constructor
        · rintro (⟨k, hk, c, hc, hz⟩ | ⟨c, hc⟩)
          · refine Or.inl ⟨k + 1, by omega, c, ?_, ?_⟩
            · rw [traceFrom_front, if_pos ⟨h0, hh⟩]
              exact hc
            · rw [show i + (k + 1) = (i + 1) + k from by omega]
              exact hz
          · refine Or.inr ⟨c, ?_⟩
            rw [traceFrom_front, if_pos ⟨h0, hh⟩]
            exact hc
        · rintro (⟨k, hk, c, hc, hz⟩ | ⟨c, hc⟩)
          · cases k with
            | zero =>
              rw [show traceFrom ns K j i 0 = some j from rfl] at hc
              obtain rfl : j = c := by simpa using hc
              rw [show i + 0 = i from rfl] at hz
              exact absurd hz h0
            | succ k =>
              rw [traceFrom_front, if_pos ⟨h0, hh⟩] at hc
              refine Or.inl ⟨k, by omega, c, hc, ?_⟩
              rw [show (i + 1) + k = i + (k + 1) from by omega]
              exact hz
          · rw [traceFrom_front, if_pos ⟨h0, hh⟩] at hc
            exact Or.inr ⟨c, hc⟩
      · rw [if_pos hh]
        constructor
        · intro h
          exact absurd h (by simp)
        · rintro (⟨k, hk, c, hc, hz⟩ | ⟨c, hc⟩)
          · cases k with
            | zero =>
              rw [show traceFrom ns K j i 0 = some j from rfl] at hc
              obtain rfl : j = c := by simpa using hc
              rw [show i + 0 = i from rfl] at hz
              exact absurd hz h0
            | succ k =>
              rw [traceFrom_front,
                if_neg (fun hcon => (by simpa using hh : ¬ _) hcon.2)] at hc
              exact Option.noConfusion hc
          · rw [traceFrom_front,
              if_neg (fun hcon => (by simpa using hh : ¬ _) hcon.2)] at hc
            exact Option.noConfusion hc

lemma getFromC_succ (key : Nat → Nat) (f : Nat) (ns : List Internal) (j i : Nat) :
    getFromC key (f + 1) ns j i =
      if h : key i < 16 then
        if getNode ns j ⟨key i, h⟩ = 0 then some none
        else if getNode ns j ⟨key i, h⟩ &&& HIGH ≠ 0 then
          some (some (getNode ns j ⟨key i, h⟩ &&& NOTHIGH))
        else getFromC key f ns (getNode ns j ⟨key i, h⟩) (i + 1)
      else none := by
  rw [getFromC]

lemma insertFromC_zero (item : Nat) (key : Nat → Nat) (lookup : Nat → Nat → Nat)
    (ns : List Internal) (index i : Nat) :
    insertFromC item key lookup 0 ns index i =
      if h : key i < 16 then
        if getNode ns index ⟨key i, h⟩ = 0 then
          some (setSlot ns index ⟨key i, h⟩ (item ||| HIGH), true)
        else some (ns, false)
      else none := by
  rw [insertFromC]

lemma insertFromC_succ (item : Nat) (key : Nat → Nat) (lookup : Nat → Nat → Nat)
    (r : Nat) (ns : List Internal) (index i : Nat) :
    insertFromC item key lookup (r + 1) ns index i =
      if h : key i < 16 then
        if getNode ns index ⟨key i, h⟩ = 0 then
          some (setSlot ns index ⟨key i, h⟩ (item ||| HIGH), true)
        else if getNode ns index ⟨key i, h⟩ &&& HIGH ≠ 0 then
          if h2 : lookup (getNode ns index ⟨key i, h⟩ &&& NOTHIGH) (i + 1) < 16 then
            if (ns.length % 2 ^ 32) &&& HIGH ≠ 0 then none
            else
              insertFromC item key lookup r
                (setSlot (ns ++ [Function.update emptyInternal
                    ⟨lookup (getNode ns index ⟨key i, h⟩ &&& NOTHIGH) (i + 1), h2⟩
                    (getNode ns index ⟨key i, h⟩)])
                  index ⟨key i, h⟩ (ns.length % 2 ^ 32)) (ns.length % 2 ^ 32) (i + 1)
          else none
        else insertFromC item key lookup r ns (getNode ns index ⟨key i, h⟩) (i + 1)
      else none := by
  rw [insertFromC]

lemma getFromC_eq {key : Nat → Nat} (hk : ∀ n, key n < 16) :
    ∀ (f j i : Nat) (ns : List Internal),
      getFromC key f ns j i =
        some (getFrom (fun n => (⟨key n, hk n⟩ : Fin 16)) f ns j i) := by
  intro f
  induction f with
  | zero => intro j i ns; rfl
  | succ f ih =>
    intro j i ns
    rw [getFromC_succ, getFrom_succ, dif_pos (hk i)]
    rcases eq_or_ne (getNode ns j ⟨key i, hk i⟩) 0 with h0 | h0
    · rw [if_pos h0, if_pos h0]
    rw [if_neg h0, if_neg h0]
    rcases eq_or_ne (getNode ns j ⟨key i, hk i⟩ &&& HIGH) 0 with hh | hh
    · rw [if_neg (by simpa using hh), if_neg (by simpa using hh)]
      exact ih _ (i + 1) ns
    · rw [if_pos hh, if_pos hh]

lemma insertFromC_eq {item : Nat} {key : Nat → Nat} {lookup : Nat → Nat → Nat}
    (hk : ∀ n, key n < 16) (hl : ∀ a b, lookup a b < 16) :
    ∀ (r : Nat) (ns : List Internal) (index i : Nat),
      insertFromC item key lookup r ns index i =
        insertFrom item (fun n => (⟨key n, hk n⟩ : Fin 16))
          (fun a b => (⟨lookup a b, hl a b⟩ : Fin 16)) r ns index i := by
  intro r
  induction r with
  | zero =>
    intro ns index i
    rw [insertFromC_zero, insertFrom_zero, dif_pos (hk i)]
  | succ r ih =>
    intro ns index i
    rw [insertFromC_succ, insertFrom_succ, dif_pos (hk i)]
    rcases eq_or_ne (getNode ns index ⟨key i, hk i⟩) 0 with h0 | h0
    · rw [if_pos h0, if_pos h0]
    rw [if_neg h0, if_neg h0]
    rcases eq_or_ne (getNode ns index ⟨key i, hk i⟩ &&& HIGH) 0 with hh | hh
    · rw [if_neg (by simpa using hh), if_neg (by simpa using hh)]
      exact ih ns _ (i + 1)
    · rw [if_pos hh, if_pos hh, dif_pos (hl _ _)]
      rcases eq_or_ne ((ns.length % 2 ^ 32) &&& HIGH) 0 with hg | hg
      · rw [if_neg (by simpa using hg), if_neg (by simpa using hg)]
        exact ih _ _ (i + 1)
      · rw [if_pos hg, if_pos hg]

lemma insert_fresh (x : Nat) (K : Nat → Fin 16) (L : Nat → Nat → Fin 16) (r : Nat) :
    insertFrom x K L r [emptyInternal] 0 0 =
      some ([Function.update emptyInternal (K 0) (x ||| HIGH)], true) := by
  have h0 : getNode [emptyInternal] 0 (K 0) = 0 := rfl
  cases r with
  | zero =>
    rw [insertFrom_zero, if_pos h0]
    rfl
  | succ r =>
    rw [insertFrom_succ, if_pos h0]
    rfl

lemma insert_chain {x y : Nat} {Ky : Nat → Fin 16} {L : Nat → Nat → Fin 16}
    (hx : x < HIGH) (hy : y < HIGH) :
    ∀ (r : Nat) (ns : List Internal) (c i : Nat),
      TreeInv ns → c < ns.length → ns.length + r ≤ HIGH →
      getNode ns c (Ky i) = x ||| HIGH →
      (∀ m, i < m → m ≤ i + r → L x m = Ky m) →
      ∃ ns2, insertFrom y Ky L r ns c i = some (ns2, false) ∧
        ns2.length = ns.length + r ∧
        getFrom Ky (r + 1) ns2 c i = some x := by
  intro r
  induction r with
  | zero =>
    intro ns c i hT hc hlen hslot hL
    refine ⟨ns, ?_, by omega, ?_⟩
    · rw [insertFrom_zero, if_neg (by rw [hslot]; exact lor_high_ne_zero x)]
    · rw [getFrom_succ, hslot, if_neg (lor_high_ne_zero x),
        if_pos (lor_high_and_high x), lor_high_and_nothigh hx]
  | succ r ih =>
    intro ns c i hT hc hlen hslot hL
    have hlt : ns.length < HIGH := by omega
    have hmod : ns.length % 2 ^ 32 = ns.length :=
      Nat.mod_eq_of_lt (lt_of_lt_of_le hlt (by norm_num [HIGH]))
    have hand : ns.length &&& HIGH = 0 := and_high_eq_zero_of_lt hlt
    have hmask : (x ||| HIGH) &&& NOTHIGH = x := lor_high_and_nothigh hx
    have hT3 := TreeInv_collision hT hc (Ky i)
      (L ((x ||| HIGH) &&& NOTHIGH) (i + 1)) (lor_high_and_high x)
    have hlen3 := length_collision ns c (Ky i)
      (Function.update emptyInternal (L ((x ||| HIGH) &&& NOTHIGH) (i + 1))
        (x ||| HIGH)) ns.length
    have hnew : getNode (setSlot (ns ++ [Function.update emptyInternal
        (L ((x ||| HIGH) &&& NOTHIGH) (i + 1)) (x ||| HIGH)]) c (Ky i) ns.length)
        ns.length (Ky (i + 1)) = x ||| HIGH := by
      rw [getNode_collision_new hc (Ky i) _ _]
      have : L ((x ||| HIGH) &&& NOTHIGH) (i + 1) = Ky (i + 1) := by
        rw [hmask]
        exact hL (i + 1) (by omega) (by omega)
      rw [this, Function.update_same]
    obtain ⟨ns2, hins, hlen2, hget⟩ := ih
      (setSlot (ns ++ [Function.update emptyInternal
        (L ((x ||| HIGH) &&& NOTHIGH) (i + 1)) (x ||| HIGH)]) c (Ky i) ns.length)
      ns.length (i + 1) hT3 (by omega) (by omega) hnew
      (fun m hm1 hm2 => hL m (by omega) (by omega))
    refine ⟨ns2, ?_, by omega, ?_⟩
    · rw [insertFrom_succ, if_neg (by rw [hslot]; exact lor_high_ne_zero x),
        if_pos (by rw [hslot]; exact lor_high_and_high x), hmod,
        if_neg (by simpa using hand), hslot]
      exact hins
    · obtain ⟨_, _, _, hframe, _⟩ := insert_master hy r _ ns.length (i + 1) ns2 false
        hT3 (by omega) (by omega) hins
      have hnodec : getNode ns2 c =
          Function.update (getNode ns c) (Ky i) ns.length := by
        rw [← getNode_collision_self hc (Ky i)
          (Function.update emptyInternal (L ((x ||| HIGH) &&& NOTHIGH) (i + 1))
            (x ||| HIGH)) ns.length]
        apply hframe c (by omega)
        intro hk
        have := (descL_bounds hT3.1 _ _ _ hk).1
        omega
      rw [getFrom_succ, hnodec, Function.update_same, if_neg (by omega),
        if_neg (by simpa using hand)]
      exact hget

lemma insert_diverge {x y : Nat} {Kx Ky : Nat → Fin 16} {L : Nat → Nat → Fin 16}
    (hx : x < HIGH) :
    ∀ (s r : Nat) (ns : List Internal) (c i : Nat),
      c < ns.length → ns.length + s ≤ HIGH → s ≤ r →
      getNode ns c = Function.update emptyInternal (Kx i) (x ||| HIGH) →
      (∀ m, i ≤ m → m < i + s → Ky m = Kx m) →
      Ky (i + s) ≠ Kx (i + s) →
      (∀ m, i < m → m ≤ i + s → L x m = Kx m) →
      ∃ ns2, insertFrom y Ky L r ns c i = some (ns2, true) ∧
        ns2.length = ns.length + s := by
  intro s
  induction s with
  | zero =>
    intro r ns c i hc hlen hsr hnode hagree hdiv hL
    have hslot : getNode ns c (Ky i) = 0 := by
      rw [hnode, Function.update_noteq (by simpa using hdiv)]
      rfl
    cases r with
    | zero =>
      refine ⟨setSlot ns c (Ky i) (y ||| HIGH), ?_, ?_⟩
      · rw [insertFrom_zero, if_pos hslot]
      · rw [length_setSlot]
        omega
    | succ r =>
      refine ⟨setSlot ns c (Ky i) (y ||| HIGH), ?_, ?_⟩
      · rw [insertFrom_succ, if_pos hslot]
      · rw [length_setSlot]
        omega
  | succ s ih =>
    intro r ns c i hc hlen hsr hnode hagree hdiv hL
    obtain ⟨r, rfl⟩ : ∃ r', r = r' + 1 := ⟨r - 1, by omega⟩
    have hslot : getNode ns c (Ky i) = x ||| HIGH := by
      rw [hnode, hagree i (le_refl i) (by omega), Function.update_same]
    have hlt : ns.length < HIGH := by omega
    have hmod : ns.length % 2 ^ 32 = ns.length :=
      Nat.mod_eq_of_lt (lt_of_lt_of_le hlt (by norm_num [HIGH]))
    have hand : ns.length &&& HIGH = 0 := and_high_eq_zero_of_lt hlt
    have hmask : (x ||| HIGH) &&& NOTHIGH = x := lor_high_and_nothigh hx
    have hnew : getNode (setSlot (ns ++ [Function.update emptyInternal
        (L ((x ||| HIGH) &&& NOTHIGH) (i + 1)) (x ||| HIGH)]) c (Ky i) ns.length)
        ns.length = Function.update emptyInternal (Kx (i + 1)) (x ||| HIGH) := by
      rw [getNode_collision_new hc (Ky i) _ _]
      have : L ((x ||| HIGH) &&& NOTHIGH) (i + 1) = Kx (i + 1) := by
        rw [hmask]
        exact hL (i + 1) (by omega) (by omega)
      rw [this]
    obtain ⟨ns2, hins, hlen2⟩ := ih r
      (setSlot (ns ++ [Function.update emptyInternal
        (L ((x ||| HIGH) &&& NOTHIGH) (i + 1)) (x ||| HIGH)]) c (Ky i) ns.length)
      ns.length (i + 1)
      (by rw [length_collision]; omega)
      (by rw [length_collision]; omega)
      (by omega) hnew
      (fun m hm1 hm2 => hagree m (by omega) (by omega))
      (by
        have : (i + 1) + s = i + (s + 1) := by omega
        rw [this]
        exact hdiv)
      (fun m hm1 hm2 => hL m (by omega) (by omega))
    refine ⟨ns2, ?_, ?_⟩
    · rw [insertFrom_succ, if_neg (by rw [hslot]; exact lor_high_ne_zero x),
        if_pos (by rw [hslot]; exact lor_high_and_high x), hmod,
        if_neg (by simpa using hand), hslot]
      exact hins
    · rw [hlen2, length_collision]
      omega

lemma getFrom_key_agree_lt {ns : List Internal} {K K' : Nat → Fin 16} :
    ∀ (f j i : Nat), (∀ m, i ≤ m → m < i + f → K m = K' m) →
      getFrom K f ns j i = getFrom K' f ns j i := by
  intro f
  induction f with
  | zero => intro j i h; rfl
  | succ f ih =>
    intro j i h
    rw [getFrom_succ, getFrom_succ, h i (le_refl i) (by omega)]
    rcases eq_or_ne (getNode ns j (K' i)) 0 with h0 | h0
    · rw [if_pos h0, if_pos h0]
    · rw [if_neg h0, if_neg h0]
      rcases eq_or_ne (getNode ns j (K' i) &&& HIGH) 0 with hh | hh
      · rw [if_neg (by simpa using hh), if_neg (by simpa using hh)]
        exact ih _ (i + 1) (fun m hm1 hm2 => h m (by omega) (by omega))
      · rw [if_pos hh, if_pos hh]

lemma reached_get_mem {t : BinTrie} {m : Multiset Nat} (h : Reached t m)
    {K : Nat → Fin 16} {v : Nat} (hg : t.get_unchecked K = some v) : v ∈ m := by
  obtain ⟨hT, hpos, hlen, hd, hleaves, _⟩ := reached_inv h
  have hmem : v ∈ leavesNode t.internals t.depth 0 :=
    (getFrom_iff_mem_leaves t.depth 0 0 v).mp ⟨K, hg⟩
  have hfull : v ∈ leavesNode t.internals (t.internals.length + 1) 0 := by
    rcases le_or_lt t.depth (t.internals.length + 1) with hle | hlt
    · exact mem_leavesNode_mono _ _ _ _ hle hmem
    · rw [leavesNode_stable hT.1 t.internals.length 0 t.depth
        (t.internals.length + 1) (by omega) (by omega) (by omega)] at hmem
      exact hmem
  rw [← hleaves]
  exact Multiset.mem_coe.mpr hfull

lemma TreeInv_singleLeaf (p : Fin 16) (x : Nat) :
    TreeInv [Function.update emptyInternal p (x ||| HIGH)] := by
  have hval : ∀ (j : Nat) (q : Fin 16), j < 1 →
      getNode [Function.update emptyInternal p (x ||| HIGH)] j q ≠ 0 →
      getNode [Function.update emptyInternal p (x ||| HIGH)] j q &&& HIGH = 0 →
      False := by
    intro j q hj h0 hh
    obtain rfl : j = 0 := by omega
    have hg : getNode [Function.update emptyInternal p (x ||| HIGH)] 0 q =
        Function.update emptyInternal p (x ||| HIGH) q := rfl
    rw [hg] at h0 hh
    rcases eq_or_ne q p with rfl | hqp
    · rw [Function.update_same] at hh
      exact lor_high_and_high x hh
    · rw [Function.update_noteq hqp] at h0
      exact h0 rfl
  constructor
  · apply WF_of_getNode
    intro j hj q h0 hh
    exact (hval j q (by simpa using hj) h0 hh).elim
  · intro k1 k2 p1 p2 heq h0 hh
    exact (hval k1 p1 (by simp) h0 hh).elim

/-- C1: an item `x` with its top bit clear that `insert_unchecked` actually
wrote (the insertion did not saturate, i.e. every collision on its descent
resolved before the final group) is returned by a subsequent
`get_unchecked` with the same key function.  The hypotheses are the
structural invariants every reachable trie satisfies. -/
theorem C1_insert_roundtrip (t : BinTrie) (x : Nat) (key : Nat → Fin 16)
    (lookup : Nat → Nat → Fin 16) (t2 : BinTrie)
    (hT : TreeInv t.internals) (hpos : 0 < t.internals.length)
    (hlen : t.internals.length ≤ HIGH) (hx : x < HIGH) (hd : 0 < t.depth)
    (h : t.insert_unchecked x key lookup = some (t2, true)) :
    t2.get_unchecked key = some x := by
  obtain ⟨ns2, hins, rfl⟩ := insert_unchecked_unwrap h
  show getFrom key t.depth ns2 0 0 = some x
  have hrt := insert_roundtrip hx (t.depth - 1) t.internals 0 0 ns2 hT hpos hlen hins
  rw [show t.depth - 1 + 1 = t.depth from by omega] at hrt
  exact hrt

theorem C1_witness :
    TreeInv (freshTrie 2).internals ∧ 0 < (freshTrie 2).internals.length ∧
    (freshTrie 2).internals.length ≤ HIGH ∧ (5 : Nat) < HIGH ∧
    0 < (freshTrie 2).depth ∧
    (freshTrie 2).insert_unchecked 5 (fun _ => 0) (fun _ _ => 0) =
      some (⟨[Function.update emptyInternal 0 (5 ||| HIGH)], 2⟩, true) ∧
    BinTrie.get_unchecked ⟨[Function.update emptyInternal 0 (5 ||| HIGH)], 2⟩
      (fun _ => 0) = some 5 :=
  ⟨by decide, by decide, by decide, by decide, by decide, rfl,
    C1_insert_roundtrip (freshTrie 2) 5 (fun _ => 0) (fun _ _ => 0)
      ⟨[Function.update emptyInternal 0 (5 ||| HIGH)], 2⟩
      (by decide) (by decide) (by decide) (by decide) (by decide) rfl⟩

/-- C2: lookup descends one slot per group: after `k` internal steps along
the key, an empty slot yields `none`, a leaf slot yields its payload
(regardless of the remaining groups), and exhausting all `depth` groups on
internal slots yields `none`; `get_unchecked` is total, so it never errors
and never returns a partial match. -/
theorem C2_get_descent (t : BinTrie) (K : Nat → Fin 16) (v : Nat) :
    (t.get_unchecked K = some v ↔
      ∃ k, k < t.depth ∧ ∃ c, traceFrom t.internals K 0 0 k = some c ∧
        getNode t.internals c (K k) &&& HIGH ≠ 0 ∧
        getNode t.internals c (K k) &&& NOTHIGH = v) ∧
    (t.get_unchecked K = none ↔
      (∃ k, k < t.depth ∧ ∃ c, traceFrom t.internals K 0 0 k = some c ∧
        getNode t.internals c (K k) = 0) ∨
      (∃ c, traceFrom t.internals K 0 0 t.depth = some c)) := by
  have h1 := @getFrom_some_iff t.internals K t.depth 0 0 v
  have h2 := @getFrom_none_iff t.internals K t.depth 0 0
  simp only [Nat.zero_add] at h1 h2
  exact ⟨h1, h2⟩

lemma insert_unchecked_wrap {t : BinTrie} {x : Nat} {key : Nat → Fin 16}
    {lookup : Nat → Nat → Fin 16} {ns2 : List Internal} {placed : Bool}
    (h : insertFrom x key lookup (t.depth - 1) t.internals 0 0 = some (ns2, placed)) :
    t.insert_unchecked x key lookup = some (⟨ns2, t.depth⟩, placed) := by
  unfold BinTrie.insert_unchecked
  rw [h]
  rfl

/-- C3: saturation at the depth boundary.  Starting from a fresh trie of
depth `d`, insert `x` under `Kx`, then insert `y` under a key `Ky` that
agrees with `Kx` on every group below `d` (so on all groups up to and
including `d-1`, matching the final-group write-only-if-empty branch).
The first insertion places its item, the second completes without error
but reports `placed = false`; afterwards lookup with the original key
still finds `x`, no key function can retrieve any value other than `x`,
and `items()` enumerates exactly the multiset `{x}` — the second item is
invisible.  `hLx` says the internal lookup callback reproduces `x`'s key
groups, as the unchecked contract requires. -/
theorem C3_saturation (d x y : Nat) (Kx Ky : Nat → Fin 16) (L : Nat → Nat → Fin 16)
    (hd : 0 < d) (hdh : d ≤ HIGH) (hx : x < HIGH) (hy : y < HIGH)
    (hagree : ∀ i, i < d → Ky i = Kx i)
    (hLx : ∀ m, L x m = Kx m)
    (t1 t2 : BinTrie) (p1 p2 : Bool)
    (h1 : (freshTrie d).insert_unchecked x Kx L = some (t1, p1))
    (h2 : t1.insert_unchecked y Ky L = some (t2, p2)) :
    p1 = true ∧ p2 = false ∧
    t2.get_unchecked Kx = some x ∧
    (∀ (K : Nat → Fin 16) (v : Nat), t2.get_unchecked K = some v → v = x) ∧
    ∃ l, t2.items = some l ∧ (l : Multiset Nat) = ({x} : Multiset Nat) := by
  obtain ⟨ns1, hins1, ht1⟩ := insert_unchecked_unwrap h1
  have hins1' : insertFrom x Kx L (d - 1) [emptyInternal] 0 0 = some (ns1, p1) := hins1
  rw [insert_fresh] at hins1'
  have hcomb1 : [Function.update emptyInternal (Kx 0) (x ||| HIGH)] = ns1 ∧ true = p1 := by
    simpa [Prod.ext_iff] using hins1'
  obtain ⟨rfl, rfl⟩ := hcomb1
  subst ht1
  obtain ⟨ns2, hins2, ht2⟩ := insert_unchecked_unwrap h2
  have hins2' : insertFrom y Ky L (d - 1)
      [Function.update emptyInternal (Kx 0) (x ||| HIGH)] 0 0 = some (ns2, p2) := hins2
  have hchain := @insert_chain x y Ky L hx hy (d - 1)
    [Function.update emptyInternal (Kx 0) (x ||| HIGH)] 0 0
    (TreeInv_singleLeaf (Kx 0) x) (by simp)
    (by
      have h1l : ([Function.update emptyInternal (Kx 0) (x ||| HIGH)]).length = 1 := rfl
      rw [h1l, show 1 + (d - 1) = d from by omega]
      exact hdh)
    (by
      rw [hagree 0 hd]
      show Function.update emptyInternal (Kx 0) (x ||| HIGH) (Kx 0) = x ||| HIGH
      rw [Function.update_same])
    (by
      intro m hm1 hm2
      rw [hLx m]
      exact (hagree m (by omega)).symm)
  obtain ⟨ns2', hins2'', hlen2, hget2⟩ := hchain
  rw [hins2''] at hins2'
  have hcomb2 : ns2' = ns2 ∧ false = p2 := by simpa [Prod.ext_iff] using hins2'
  have hns2 : ns2 = ns2' := (hcomb2.1).symm
  have hp2 : p2 = false := (hcomb2.2).symm
  subst hns2
  subst hp2
  subst ht2
  have hR1 : Reached (⟨ns2, d⟩ : BinTrie) ({x} : Multiset Nat) := by
    have hRa : Reached
        (⟨[Function.update emptyInternal (Kx 0) (x ||| HIGH)], d⟩ : BinTrie)
        ({x} : Multiset Nat) := by
      have := Reached.ins (freshTrie d) 0 x Kx L _ true hx (Reached.new d hd) h1
      simpa using this
    have := Reached.ins _ ({x} : Multiset Nat) y Ky L _ false hy hRa h2
    simpa using this
  refine ⟨rfl, rfl, ?_, ?_, ?_⟩
  · show getFrom Kx d ns2 0 0 = some x
    rw [getFrom_key_agree_lt d 0 0
      (fun m _ hm => (hagree m (by omega)).symm)]
    rw [show d - 1 + 1 = d from by omega] at hget2
    exact hget2
  · intro K v hKv
    have := reached_get_mem hR1 hKv
    exact Multiset.mem_singleton.mp this
  · obtain ⟨hT2, _, _, _, hleaves, _⟩ := reached_inv hR1
    exact ⟨_, items_eq_leaves hT2.1, hleaves⟩

theorem C3_witness :
    BinTrie.get_unchecked
      ⟨[Function.update emptyInternal 0 (5 ||| HIGH)], 1⟩ (fun _ => 0) = some 5 :=
  (C3_saturation 1 5 6 (fun _ => 0) (fun _ => 0) (fun _ _ => 0)
    (by decide) (by decide) (by decide) (by decide)
    (fun i _ => rfl) (fun m => rfl)
    ⟨[Function.update emptyInternal 0 (5 ||| HIGH)], 1⟩
    ⟨[Function.update emptyInternal 0 (5 ||| HIGH)], 1⟩
    true false rfl rfl).2.2.1

def c4run : Option (Nat × Nat) :=
  (BinTrie.insert_unchecked (freshTrie 2) 1 (fun _ => 0) (fun _ _ => 0)).bind
    fun q1 => (q1.1.insert_unchecked 2 (fun n => if n = 0 then 1 else 0)
      (fun _ _ => 0)).map
      fun q2 => (q1.1.internals.length, q2.1.internals.length)

/-- C4 counterexample: in a depth-2 trie holding item 1 (key groups all 0),
inserting item 2 whose key first diverges at group 0 (so the two items
share g = 0 groups) leaves the arena at 1 node: the growth is 0, not the
claimed g + 1 = 1.  The divergent leaf is written into the existing root
node without allocating anything. -/
theorem C4_counterexample :
    c4run = some (1, 1) ∧ ¬ ((1 : Nat) - 1 = 0 + 1) := ⟨rfl, by decide⟩

/-- C4 amended: for a trie containing a single item `x` (inserted into a
fresh trie of depth `d`), inserting a second item `y` whose key shares
exactly the groups `0..g` (exclusive) with `x`'s key and first diverges at
group `g < d` grows the arena by exactly `g` nodes — the number of shared
groups, not that number plus one.  One node is allocated per shared group;
the divergent group reuses the node in which the collision chain ends. -/
theorem C4_collision_growth (d g x y : Nat) (Kx Ky : Nat → Fin 16)
    (L : Nat → Nat → Fin 16)
    (hd : 0 < d) (hdh : d ≤ HIGH) (hx : x < HIGH)
    (hg : g < d)
    (hagree : ∀ i, i < g → Ky i = Kx i)
    (hdiv : Ky g ≠ Kx g)
    (hLx : ∀ m, L x m = Kx m)
    (t1 : BinTrie) (p1 : Bool)
    (h1 : (freshTrie d).insert_unchecked x Kx L = some (t1, p1)) :
    ∃ t2 : BinTrie, t1.insert_unchecked y Ky L = some (t2, true) ∧
      t2.internals.length = t1.internals.length + g := by
  obtain ⟨ns1, hins1, ht1⟩ := insert_unchecked_unwrap h1
  have hins1' : insertFrom x Kx L (d - 1) [emptyInternal] 0 0 = some (ns1, p1) := hins1
  rw [insert_fresh] at hins1'
  have hcomb1 : [Function.update emptyInternal (Kx 0) (x ||| HIGH)] = ns1 ∧ true = p1 := by
    simpa [Prod.ext_iff] using hins1'
  obtain ⟨rfl, rfl⟩ := hcomb1
  subst ht1
  have hdva := @insert_diverge x y Kx Ky L hx g (d - 1)
    [Function.update emptyInternal (Kx 0) (x ||| HIGH)] 0 0
    (by simp)
    (by
      have h1l : ([Function.update emptyInternal (Kx 0) (x ||| HIGH)]).length = 1 := rfl
      rw [h1l]
      exact le_trans (by omega) hdh)
    (by omega)
    rfl
    (fun m _ hm => hagree m (by omega))
    (by simpa using hdiv)
    (fun m hm1 hm2 => hLx m)
  obtain ⟨ns2, hins2, hlen2⟩ := hdva
  refine ⟨⟨ns2, d⟩, ?_, ?_⟩
  · exact insert_unchecked_wrap hins2
  · show ns2.length = _
    rw [hlen2]

theorem C4_growth_witness :
    ∃ t2 : BinTrie,
      BinTrie.insert_unchecked
        ⟨[Function.update emptyInternal 0 (7 ||| HIGH)], 3⟩ 9
        (fun n => if n = 1 then 2 else 0) (fun _ _ => 0) = some (t2, true) ∧
      t2.internals.length =
        (⟨[Function.update emptyInternal 0 (7 ||| HIGH)], 3⟩ : BinTrie).internals.length + 1 :=
  C4_collision_growth 3 1 7 9 (fun _ => 0) (fun n => if n = 1 then 2 else 0)
    (fun _ _ => 0) (by decide) (by decide) (by decide) (by decide)
    (by decide) (by decide) (fun m => rfl)
    ⟨[Function.update emptyInternal 0 (7 ||| HIGH)], 3⟩ true rfl

/-- C5: enumeration completeness.  For every reachable trie state (fresh
construction followed by any sequence of unchecked insertions of items
below the tag bit), `items()` terminates and yields exactly the multiset
`m` of items placed by the successful (non-dropped) insertions — so each
placed item appears exactly once per successful placement and dropped
items are absent — and an item is retrievable by `get` under some key
function precisely when it belongs to that multiset. -/
theorem C5_items_complete (t : BinTrie) (m : Multiset Nat) (h : Reached t m) :
    ∃ l, t.items = some l ∧ (l : Multiset Nat) = m ∧
      ∀ v, (∃ K, t.get_unchecked K = some v) ↔ v ∈ m := by
  obtain ⟨hT, hpos, hlen, hd, hleaves, hget⟩ := reached_inv h
  refine ⟨t.leaves, items_eq_leaves hT.1, ?_, ?_⟩
  · exact hleaves
  · intro v
    constructor
    · rintro ⟨K, hK⟩
      exact reached_get_mem h hK
    · intro hv
      exact hget v hv

theorem C5_witness :
    ∃ l, (freshTrie 1).items = some l ∧ (l : Multiset Nat) = (0 : Multiset Nat) ∧
      ∀ v, (∃ K, (freshTrie 1).get_unchecked K = some v) ↔ v ∈ (0 : Multiset Nat) :=
  C5_items_complete (freshTrie 1) 0 (Reached.new 1 (by decide))

/-- C6: pruning correctness for the full-range heuristic.  A heuristic
whose candidate function returns the whole `0..16` range at every node
(with an arbitrary state transition `enter` over an arbitrary state type)
makes `explore` produce exactly the run of `items()`: the two stack
machines agree at every fuel, so whenever `items()` yields a list,
`explore` yields one with the same multiset (here even the same list, so
in particular the same order). -/
theorem C6_explore_full_range (t : BinTrie) {σ : Type} (enter : Fin 16 → σ → σ)
    (s : σ) :
    (∀ fuel, t.explore (fullHeuristic enter) s fuel =
      collect t.internals fuel (itemsInit t.internals)) ∧
    (∀ l, t.items = some l →
      ∃ l', t.explore (fullHeuristic enter) s
          (stackWork t.internals (itemsInit t.internals)) = some l' ∧
        (l' : Multiset Nat) = (l : Multiset Nat)) := by
  have hbase : ∀ fuel, t.explore (fullHeuristic enter) s fuel =
      collect t.internals fuel (itemsInit t.internals) := by
    intro fuel
    show exploreCollect _ _ _ _ = _
    apply explore_full_bisim
    exact ExpRel.cons (getNode t.internals 0) s 0 [] [] ExpRel.nil
  refine ⟨hbase, ?_⟩
  intro l hl
  refine ⟨l, ?_, rfl⟩
  rw [hbase]
  exact hl

theorem C6_witness :
    ∃ l', (freshTrie 1).explore (fullHeuristic (fun (_ : Fin 16) (_ : Unit) => ()))
        () (stackWork (freshTrie 1).internals (itemsInit (freshTrie 1).internals)) =
        some l' ∧
      (l' : Multiset Nat) = (([] : List Nat) : Multiset Nat) :=
  (C6_explore_full_range (freshTrie 1) (fun _ _ => ()) ()).2 [] rfl

def c7run : Option (Option Nat × Option Nat) :=
  (BinTrie.insert_unchecked (freshTrie 3) 5 (fun _ => 0) (fun _ _ => 0)).bind
    fun q1 => (q1.1.insert_unchecked 5 (fun _ => 0) (fun _ _ => 0)).map
      fun q2 => (q1.1.get_unchecked (fun n => if n = 1 then 7 else 0),
                 q2.1.get_unchecked (fun n => if n = 1 then 7 else 0))

/-- C7 counterexample: re-inserting a duplicate does change some lookup
results.  In a depth-3 trie holding item 5 under the all-zero key, the key
function that differs at group 1 still finds 5 before the re-insertion
(the descent stops at the group-0 leaf before ever consulting group 1),
but after re-inserting 5 the leaf has been pushed two levels down and that
key's descent now reaches an empty slot: the result flips from `some 5` to
`none`, refuting "no change to lookup results" for every key function. -/
theorem C7_counterexample :
    c7run = some (some 5, none) ∧ some 5 ≠ (none : Option Nat) :=
  ⟨rfl, by decide⟩

/-- C7 amended: re-inserting an item `y` whose key decomposition agrees at
every group with the stored item `x`'s key (modelled with the single key
function `K`, starting from a fresh depth-`d` trie holding only `x`)
triggers the collision branch at every loop group: it allocates exactly
`d - 1` new internal nodes, reports the duplicate as dropped
(`placed = false`), and lookup under the *same* key decomposition `K` is
unchanged — it returns `x` both before and after.  (Lookups under other
key functions can change; see the counterexample.) -/
theorem C7_duplicate_reinsert (d x y : Nat) (K : Nat → Fin 16)
    (L : Nat → Nat → Fin 16)
    (hd : 0 < d) (hdh : d ≤ HIGH) (hx : x < HIGH) (hy : y < HIGH)
    (hL : ∀ m, L x m = K m)
    (t1 : BinTrie) (p1 : Bool)
    (h1 : (freshTrie d).insert_unchecked x K L = some (t1, p1)) :
    t1.get_unchecked K = some x ∧
    ∃ t2, t1.insert_unchecked y K L = some (t2, false) ∧
      t2.internals.length = t1.internals.length + (d - 1) ∧
      t2.get_unchecked K = some x := by
  obtain ⟨ns1, hins1, ht1⟩ := insert_unchecked_unwrap h1
  have hins1' : insertFrom x K L (d - 1) [emptyInternal] 0 0 = some (ns1, p1) := hins1
  rw [insert_fresh] at hins1'
  have hcomb1 : [Function.update emptyInternal (K 0) (x ||| HIGH)] = ns1 ∧ true = p1 := by
    simpa [Prod.ext_iff] using hins1'
  obtain ⟨rfl, rfl⟩ := hcomb1
  subst ht1
  have hins1'' : insertFrom x K L (d - 1) [emptyInternal] 0 0 =
      some ([Function.update emptyInternal (K 0) (x ||| HIGH)], true) := hins1
  have hrt := insert_roundtrip hx (d - 1) [emptyInternal] 0 0 _
    (by decide) (by decide) (by decide) hins1''
  rw [show d - 1 + 1 = d from by omega] at hrt
  have hchain := @insert_chain x y K L hx hy (d - 1)
    [Function.update emptyInternal (K 0) (x ||| HIGH)] 0 0
    (TreeInv_singleLeaf (K 0) x) (by simp)
    (by
      have h1l : ([Function.update emptyInternal (K 0) (x ||| HIGH)]).length = 1 := rfl
      rw [h1l, show 1 + (d - 1) = d from by omega]
      exact hdh)
    (by
      show Function.update emptyInternal (K 0) (x ||| HIGH) (K 0) = x ||| HIGH
      rw [Function.update_same])
    (fun m hm1 hm2 => hL m)
  obtain ⟨ns2, hins2, hlen2, hget2⟩ := hchain
  refine ⟨hrt, ⟨ns2, d⟩, insert_unchecked_wrap hins2, ?_, ?_⟩
  · show ns2.length = _
    rw [hlen2]
  · show getFrom K d ns2 0 0 = some x
    rw [show d - 1 + 1 = d from by omega] at hget2
    exact hget2

theorem C7_witness :
    BinTrie.get_unchecked
      ⟨[Function.update emptyInternal 0 (6 ||| HIGH)], 1⟩ (fun _ => 0) = some 6 ∧
    ∃ t2, BinTrie.insert_unchecked
        ⟨[Function.update emptyInternal 0 (6 ||| HIGH)], 1⟩ 6
        (fun _ => 0) (fun _ _ => 0) = some (t2, false) ∧
      t2.internals.length =
        (⟨[Function.update emptyInternal 0 (6 ||| HIGH)], 1⟩ : BinTrie).internals.length
          + (1 - 1) ∧
      t2.get_unchecked (fun _ => 0) = some 6 :=
  C7_duplicate_reinsert 1 6 6 (fun _ => 0) (fun _ _ => 0) (by decide) (by decide)
    (by decide) (by decide) (fun m => rfl)
    ⟨[Function.update emptyInternal 0 (6 ||| HIGH)], 1⟩ true rfl

/-- C8: validation at the checked entry points, with `none` modelling the
Rust panic/assert abort.  `insert` aborts when the item has the reserved
top bit set, and when (with a valid item) a consulted key callback value
is out of range — group 0 is always consulted, so a key returning ≥ 16
there aborts unconditionally; with in-range key and lookup callbacks it
agrees with the unchecked insertion (dropping the `placed` flag).  `get`
agrees with the unchecked lookup for in-range keys and aborts when the
key's group 0 is out of range (at positive depth, where it is consulted).
`new_depth 0` aborts; `new_depth d` for positive `d` returns the fresh
one-node trie.  Finally, `insert` also aborts when a consulted *lookup*
callback value is out of range: the lookup is consulted exactly in the
collision branch, so the last conjunct exhibits the general collision
shape — a leaf in the root slot selected by the key's group 0 (with the
loop entered, i.e. depth at least 2) whose displacement consults the
lookup at group 1; a lookup value ≥ 16 there makes the whole insertion
abort.  Aborts are immediate, never a recoverable error value. -/
theorem C8_validation (t : BinTrie) (x : Nat) (keyN : Nat → Nat)
    (lookupN : Nat → Nat → Nat) (d : Nat) :
    (x &&& HIGH ≠ 0 → t.insert x keyN lookupN = none) ∧
    (x &&& HIGH = 0 → ∀ (hk : ∀ n, keyN n < 16) (hl : ∀ a b, lookupN a b < 16),
      t.insert x keyN lookupN =
        (t.insert_unchecked x (fun n => (⟨keyN n, hk n⟩ : Fin 16))
          (fun a b => (⟨lookupN a b, hl a b⟩ : Fin 16))).map (fun p => p.1)) ∧
    (∀ (hk : ∀ n, keyN n < 16),
      t.get keyN = some (t.get_unchecked (fun n => (⟨keyN n, hk n⟩ : Fin 16)))) ∧
    (16 ≤ keyN 0 → 0 < t.depth → t.get keyN = none) ∧
    (16 ≤ keyN 0 → x &&& HIGH = 0 → t.insert x keyN lookupN = none) ∧
    BinTrie.new_depth 0 = none ∧
    (0 < d → BinTrie.new_depth d = some (freshTrie d)) ∧
    (∀ (hk0 : keyN 0 < 16), x &&& HIGH = 0 → 2 ≤ t.depth →
      getNode t.internals 0 ⟨keyN 0, hk0⟩ &&& HIGH ≠ 0 →
      16 ≤ lookupN (getNode t.internals 0 ⟨keyN 0, hk0⟩ &&& NOTHIGH) 1 →
      t.insert x keyN lookupN = none) := by
  refine ⟨?_, ?_, ?_, ?_, ?_, ?_, ?_, ?_⟩
  · intro hbad
    unfold BinTrie.insert
    rw [if_pos hbad]
  · intro hok hk hl
    unfold BinTrie.insert BinTrie.insert_unchecked
    rw [if_neg (by simp [hok]), insertFromC_eq hk hl]
    cases ho : insertFrom x (fun n => (⟨keyN n, hk n⟩ : Fin 16))
        (fun a b => (⟨lookupN a b, hl a b⟩ : Fin 16)) (t.depth - 1) t.internals 0 0 with
    | none => rfl
    | some p => rfl
  · intro hk
    exact getFromC_eq hk t.depth 0 0 t.internals
  · intro hbadk hdpos
    unfold BinTrie.get
    obtain ⟨d', hd'⟩ : ∃ d', t.depth = d' + 1 := ⟨t.depth - 1, by omega⟩
    rw [hd', getFromC_succ, dif_neg (by omega)]
  · intro hbadk hok
    unfold BinTrie.insert
    rw [if_neg (by simp [hok])]
    cases hr : t.depth - 1 with
    | zero => rw [insertFromC_zero, dif_neg (by omega)]; rfl
    | succ r => rw [insertFromC_succ, dif_neg (by omega)]; rfl
  · unfold BinTrie.new_depth
    rw [if_neg (by decide)]
  · intro hd0
    unfold BinTrie.new_depth
    rw [if_pos hd0]
  · intro hk0 hok hd2 hleaf hlk
    unfold BinTrie.insert
    rw [if_neg (by simp [hok])]
    obtain ⟨r, hr⟩ : ∃ r, t.depth - 1 = r + 1 := ⟨t.depth - 2, by omega⟩
    rw [hr, insertFromC_succ, dif_pos hk0,
      if_neg (fun h0 => hleaf (by rw [h0]; exact Nat.zero_and HIGH)),
      if_pos hleaf,
      dif_neg (by simp only [Nat.zero_add]; exact Nat.not_lt.mpr hlk)]
    rfl

theorem C8_witness :
    BinTrie.insert (freshTrie 1) HIGH (fun _ => 0) (fun _ _ => 0) = none ∧
    BinTrie.get (freshTrie 1) (fun _ => 16) = none ∧
    BinTrie.insert (freshTrie 1) 0 (fun _ => 16) (fun _ _ => 0) = none ∧
    BinTrie.new_depth 0 = none ∧
    BinTrie.new_depth 3 = some (freshTrie 3) ∧
    BinTrie.insert ⟨[Function.update emptyInternal 0 (5 ||| HIGH)], 2⟩ 0
      (fun _ => 0) (fun _ _ => 16) = none :=
  ⟨(C8_validation (freshTrie 1) HIGH (fun _ => 0) (fun _ _ => 0) 3).1 (by decide),
   (C8_validation (freshTrie 1) HIGH (fun _ => 16) (fun _ _ => 0) 3).2.2.2.1
     (by decide) (by decide),
   (C8_validation (freshTrie 1) 0 (fun _ => 16) (fun _ _ => 0) 3).2.2.2.2.1
     (by decide) (by decide),
   (C8_validation (freshTrie 1) 0 (fun _ => 0) (fun _ _ => 0) 3).2.2.2.2.2.1,
   (C8_validation (freshTrie 1) 0 (fun _ => 0) (fun _ _ => 0) 3).2.2.2.2.2.2.1
     (by decide),
   (C8_validation ⟨[Function.update emptyInternal 0 (5 ||| HIGH)], 2⟩ 0
      (fun _ => 0) (fun _ _ => 16) 3).2.2.2.2.2.2.2
     (by decide) (by decide) (by decide) (by decide) (by decide)⟩

/-- C9: structural invariants.  Under the reachable-state preconditions
(the tree invariant, a nonempty arena, the `2^31` cap and a valid item),
any completed unchecked insertion preserves the tree invariant — in
particular every internal-reference slot stays a valid in-bounds (and
strictly forward) index — never shrinks the arena (nodes are only
appended), keeps its length at most `2^31`, and leaves the depth (and the
root at index 0) in place.  A growth step whose new index would collide
with the leaf-tag bit fails the assertion (`none`) instead of completing,
which is why a completed insertion can never exceed the cap. -/
theorem C9_invariants (t : BinTrie) (x : Nat) (key : Nat → Fin 16)
    (lookup : Nat → Nat → Fin 16) (t2 : BinTrie) (placed : Bool)
    (hT : TreeInv t.internals) (hpos : 0 < t.internals.length)
    (hlen : t.internals.length ≤ HIGH) (hx : x < HIGH)
    (h : t.insert_unchecked x key lookup = some (t2, placed)) :
    WF t2.internals ∧ TreeInv t2.internals ∧
    t.internals.length ≤ t2.internals.length ∧
    t2.internals.length ≤ HIGH ∧ t2.depth = t.depth := by
  obtain ⟨ns2, hins, ht2⟩ := insert_unchecked_unwrap h
  have hm := insert_master hx (t.depth - 1) t.internals 0 0 ns2 placed hT hpos hlen hins
  obtain ⟨hT2, hmono, hcap, _, _⟩ := hm
  subst ht2
  exact ⟨hT2.1, hT2, hmono, hcap, rfl⟩

theorem C9_witness :
    WF [Function.update emptyInternal 0 (3 ||| HIGH)] :=
  (C9_invariants (freshTrie 2) 3 (fun _ => 0) (fun _ _ => 0)
    ⟨[Function.update emptyInternal 0 (3 ||| HIGH)], 2⟩ true
    (by decide) (by decide) (by decide) (by decide) rfl).1

/-- C10: a freshly constructed trie (`new()`, i.e. depth 8192, or
`new_depth d` for positive `d`) has a one-node arena whose single node is
the all-empty root, lookup under every key function returns `none`, and
`items()` yields the empty sequence. -/
theorem C10_fresh (d : Nat) (hd : 0 < d) (K : Nat → Fin 16) :
    (freshTrie d).get_unchecked K = none ∧
    (freshTrie d).items = some [] ∧
    (freshTrie d).internals.length = 1 ∧
    getNode (freshTrie d).internals 0 = emptyInternal ∧
    BinTrie.newDefault = freshTrie 8192 ∧
    BinTrie.new_depth d = some (freshTrie d) := by
  refine ⟨?_, ?_, rfl, rfl, rfl, ?_⟩
  · show getFrom K d [emptyInternal] 0 0 = none
    obtain ⟨d', rfl⟩ : ∃ d', d = d' + 1 := ⟨d - 1, by omega⟩
    have h0 : getNode [emptyInternal] 0 (K 0) = 0 := rfl
    rw [getFrom_succ, if_pos h0]
  · show collect [emptyInternal]
        (stackWork [emptyInternal] (itemsInit [emptyInternal]))
        (itemsInit [emptyInternal]) = some []
    decide
  · unfold BinTrie.new_depth
    rw [if_pos hd]

theorem C10_witness :
    (freshTrie 2).get_unchecked (fun _ => 0) = none ∧
    (freshTrie 2).items = some [] ∧
    (freshTrie 2).internals.length = 1 ∧
    getNode (freshTrie 2).internals 0 = emptyInternal ∧
    BinTrie.newDefault = freshTrie 8192 ∧
    BinTrie.new_depth 2 = some (freshTrie 2) :=
  C10_fresh 2 (by decide) (fun _ => 0)
